import Mathlib

/-!
Verification development for the columnar field-storage layer of the
tantivy search engine: the serialization and open drivers of
`columnar/src/column/serialize.rs` and the generic tagged-value codec of
`src/schema/value.rs`.

Byte streams are modelled as `List Nat` (each element one byte).
Fixed-width machine integers are modelled as `Nat`/`Int` with explicit
truncation modulo powers of two where the machine code truncates.
-/

set_option maxRecDepth 10000

namespace Tantivy

/-! ## Byte-level helpers -/

/-- Little-endian encoding of a natural number into exactly `k` bytes.
The value is truncated modulo `2 ^ (8 * k)`, mirroring a fixed-width
integer write such as `u32::to_le_bytes`. -/
def natToLE : Nat → Nat → List Nat
  | 0, _ => []
  | k + 1, n => n % 256 :: natToLE k (n / 256)

/-- Little-endian decoding of a byte list into a natural number. -/
def leToNat : List Nat → Nat
  | [] => 0
  | b :: bs => b + 256 * leToNat bs

theorem natToLE_length (k n : Nat) : (natToLE k n).length = k := by
  induction k generalizing n with
  | zero => rfl
  | succ k ih => simp [natToLE, ih]

theorem leToNat_natToLE (k n : Nat) (h : n < 2 ^ (8 * k)) :
    leToNat (natToLE k n) = n := by
  induction k generalizing n with
  | zero =>
    simp only [Nat.mul_zero, pow_zero, Nat.lt_one_iff] at h
    simp [natToLE, leToNat, h]
  | succ k ih =>
    have hdiv : n / 256 < 2 ^ (8 * k) := by
      apply Nat.div_lt_of_lt_mul
      calc n < 2 ^ (8 * (k + 1)) := h
        _ = 256 * 2 ^ (8 * k) := by ring
    simp only [natToLE, leToNat, ih (n / 256) hdiv]
    omega

/-- The tantivy `VInt` encoding: 7-bit groups, least significant first,
with the stop bit (`128`) set on the final byte. -/
def vintEnc (n : Nat) : List Nat :=
  if n < 128 then [n + 128]
  else n % 128 :: vintEnc (n / 128)
termination_by n
decreasing_by exact Nat.div_lt_self (by omega) (by omega)

/-- Decoding of the `VInt` encoding; returns the value and the unread rest. -/
def vintDec : List Nat → Option (Nat × List Nat)
  | [] => none
  | b :: bs =>
    if 128 ≤ b then some (b - 128, bs)
    else
      match vintDec bs with
      | some (v, rest) => some (b + 128 * v, rest)
      | none => none

theorem vintDec_vintEnc (n : Nat) (rest : List Nat) :
    vintDec (vintEnc n ++ rest) = some (n, rest) := by
  induction n using Nat.strong_induction_on with
  | _ n ih =>
    by_cases h : n < 128
    · rw [vintEnc]
      simp [h, vintDec]
    · rw [vintEnc]
      simp only [h, if_false, List.cons_append, vintDec]
      have hmod : ¬ (128 ≤ n % 128) := by
        have := Nat.mod_lt n (y := 128) (by omega)
        omega
      rw [if_neg hmod, ih (n / 128) (Nat.div_lt_self (by omega) (by omega))]
      have hsum : n % 128 + 128 * (n / 128) = n := by omega
      simp [hsum]

/-- Number of bits needed to represent every value up to `n`
(`0` for `n = 0`). -/
def numBits (n : Nat) : Nat :=
  if n = 0 then 0 else Nat.log2 n + 1

theorem lt_two_pow_numBits {x m : Nat} (h : x ≤ m) : x < 2 ^ numBits m := by
  unfold numBits
  by_cases hm : m = 0
  · subst hm
    have hx : x = 0 := by omega
    subst hx
    norm_num
  · rw [if_neg hm]
    have : m < 2 ^ (Nat.log2 m + 1) := Nat.lt_log2_self
    omega

/-- Packs a list of `w`-bit chunks into a single natural number,
least-significant chunk first. -/
def packChunks (w : Nat) : List Nat → Nat
  | [] => 0
  | d :: ds => d + 2 ^ w * packChunks w ds

theorem packChunks_lt (w : Nat) (ds : List Nat) (h : ∀ d ∈ ds, d < 2 ^ w) :
    packChunks w ds < 2 ^ (w * ds.length) := by
  induction ds with
  | nil => simp [packChunks]
  | cons d ds ih =>
    have hd : d < 2 ^ w := h d (List.mem_cons_self d ds)
    have hds := ih (fun x hx => h x (List.mem_cons_of_mem d hx))
    simp only [packChunks, List.length_cons]
    have : 2 ^ (w * (ds.length + 1)) = 2 ^ w * 2 ^ (w * ds.length) := by
      rw [← pow_add]; ring_nf
    rw [this]
    calc d + 2 ^ w * packChunks w ds
        < 2 ^ w + 2 ^ w * packChunks w ds := by omega
      _ = 2 ^ w * (packChunks w ds + 1) := by ring
      _ ≤ 2 ^ w * 2 ^ (w * ds.length) := by
          apply Nat.mul_le_mul_left
          omega

theorem packChunks_extract (w : Nat) (ds : List Nat) (h : ∀ d ∈ ds, d < 2 ^ w)
    (i : Nat) (hi : i < ds.length) :
    packChunks w ds / 2 ^ (w * i) % 2 ^ w = ds.getD i 0 := by
  induction ds generalizing i with
  | nil => simp at hi
  | cons d ds ih =>
    have hd : d < 2 ^ w := h d (List.mem_cons_self d ds)
    cases i with
    | zero =>
      simp only [packChunks, Nat.mul_zero, pow_zero, Nat.div_one, List.getD_cons_zero]
      rw [Nat.add_mul_mod_self_left, Nat.mod_eq_of_lt hd]
    | succ i =>
      have hstep : packChunks w (d :: ds) / 2 ^ (w * (i + 1)) =
          packChunks w ds / 2 ^ (w * i) := by
        have : 2 ^ (w * (i + 1)) = 2 ^ w * 2 ^ (w * i) := by
          rw [← pow_add]; ring_nf
        rw [this, ← Nat.div_div_eq_div_mul]
        simp only [packChunks]
        rw [Nat.add_mul_div_left _ _ (Nat.pos_pow_of_pos w (by omega)),
          Nat.div_eq_of_lt hd, Nat.zero_add]
      rw [hstep, ih (fun x hx => h x (List.mem_cons_of_mem d hx)) i
        (by simpa using Nat.lt_of_succ_lt_succ hi)]
      simp

/-- Ceiling division. -/
def ceilDiv (a b : Nat) : Nat := (a + b - 1) / b

theorem le_mul_ceilDiv (a : Nat) : a ≤ 8 * ceilDiv a 8 := by
  unfold ceilDiv
  omega

/-- Fold of `min` over a list with an initial element. -/
def foldMin {α : Type} [LinearOrder α] (h : α) (t : List α) : α := t.foldr min h

/-- Fold of `max` over a list with an initial element. -/
def foldMax {α : Type} [LinearOrder α] (h : α) (t : List α) : α := t.foldr max h

theorem foldMin_le_init {α : Type} [LinearOrder α] (h : α) (t : List α) :
    foldMin h t ≤ h := by
  induction t with
  | nil => simp [foldMin]
  | cons a t ih =>
    calc foldMin h (a :: t) = min a (foldMin h t) := rfl
      _ ≤ foldMin h t := min_le_right _ _
      _ ≤ h := ih

theorem foldMin_le_mem {α : Type} [LinearOrder α] (h : α) {t : List α} {x : α}
    (hx : x ∈ t) : foldMin h t ≤ x := by
  induction t with
  | nil => simp at hx
  | cons a t ih =>
    rcases List.mem_cons.mp hx with hxa | hxt
    · rw [hxa]; exact min_le_left _ _
    · calc foldMin h (a :: t) ≤ foldMin h t := min_le_right _ _
        _ ≤ x := ih hxt

theorem foldMin_mem {α : Type} [LinearOrder α] (h : α) (t : List α) :
    foldMin h t ∈ h :: t := by
  induction t with
  | nil => simp [foldMin]
  | cons a t ih =>
    rcases min_cases a (foldMin h t) with ⟨heq, _⟩ | ⟨heq, _⟩
    · show min a (foldMin h t) ∈ _
      rw [heq]
      exact List.mem_cons_of_mem h (List.mem_cons_self a t)
    · show min a (foldMin h t) ∈ _
      rw [heq]
      rcases List.mem_cons.mp ih with h1 | h2
      · rw [h1]; exact List.mem_cons_self _ _
      · exact List.mem_cons_of_mem _ (List.mem_cons_of_mem _ h2)

theorem le_foldMax_init {α : Type} [LinearOrder α] (h : α) (t : List α) :
    h ≤ foldMax h t := by
  induction t with
  | nil => simp [foldMax]
  | cons a t ih =>
    calc h ≤ foldMax h t := ih
      _ ≤ max a (foldMax h t) := le_max_right _ _

theorem mem_le_foldMax {α : Type} [LinearOrder α] (h : α) {t : List α} {x : α}
    (hx : x ∈ t) : x ≤ foldMax h t := by
  induction t with
  | nil => simp at hx
  | cons a t ih =>
    rcases List.mem_cons.mp hx with hxa | hxt
    · rw [hxa]; exact le_max_left _ _
    · calc x ≤ foldMax h t := ih hxt
        _ ≤ foldMax h (a :: t) := le_max_right _ _

/-- Two's-complement encoding of an integer into the range `[0, 2^128)`. -/
def toTwos128 (i : Int) : Nat := (i % (2 ^ 128 : Int)).toNat

/-- Reading back a two's-complement 128-bit value. -/
def fromTwos128 (n : Nat) : Int :=
  if n < 2 ^ 127 then (n : Int) else (n : Int) - 2 ^ 128

theorem fromTwos128_toTwos128 (i : Int) (h1 : -(2 ^ 127) ≤ i) (h2 : i < 2 ^ 127) :
    fromTwos128 (toTwos128 i) = i := by
  unfold toTwos128 fromTwos128
  have hm0 : 0 ≤ i % 2 ^ 128 := Int.emod_nonneg i (by norm_num)
  have hm1 : i % 2 ^ 128 < 2 ^ 128 := Int.emod_lt_of_pos i (by norm_num)
  have hmod : i % 2 ^ 128 = i ∨ i % 2 ^ 128 = i + 2 ^ 128 := by omega
  split <;> omega

theorem toTwos128_lt (i : Int) : toTwos128 i < 2 ^ 128 := by
  unfold toTwos128
  have hm0 : 0 ≤ i % 2 ^ 128 := Int.emod_nonneg i (by norm_num)
  have hm1 : i % 2 ^ 128 < 2 ^ 128 := Int.emod_lt_of_pos i (by norm_num)
  omega

/-- Minimum of a list of naturals (`0` for the empty list). -/
def natMin : List Nat → Nat
  | [] => 0
  | h :: t => foldMin h t

/-- Maximum of a list of naturals (`0` for the empty list). -/
def natMax : List Nat → Nat
  | [] => 0
  | h :: t => foldMax h t

theorem natMin_le_mem {l : List Nat} {x : Nat} (hx : x ∈ l) : natMin l ≤ x := by
  cases l with
  | nil => simp at hx
  | cons h t =>
    rcases List.mem_cons.mp hx with hxa | hxt
    · rw [hxa]; exact foldMin_le_init h t
    · exact foldMin_le_mem h hxt

theorem mem_le_natMax {l : List Nat} {x : Nat} (hx : x ∈ l) : x ≤ natMax l := by
  cases l with
  | nil => simp at hx
  | cons h t =>
    rcases List.mem_cons.mp hx with hxa | hxt
    · rw [hxa]; exact le_foldMax_init h t
    · exact mem_le_foldMax h hxt

theorem natMin_lt_of_all {l : List Nat} {B : Nat} (hB : 0 < B)
    (h : ∀ v ∈ l, v < B) : natMin l < B := by
  cases l with
  | nil => simpa [natMin]
  | cons a t =>
    have : natMin (a :: t) ≤ a := natMin_le_mem (List.mem_cons_self a t)
    have := h a (List.mem_cons_self a t)
    omega

/-! ## Numeric codec layer (u64 domain)

The codec implementations live in `column_values/u64_based`, which is not
part of the available source; they are modelled from the spec (sections 4.2
and 2). -/

/-- The closed enumeration of u64 codec strategies offered to the driver
(`CodecType`); the candidate set used by the driver is
`{Bitpacked, BlockwiseLinear}`. -/
inductive CodecType where
  | Bitpacked
  | BlockwiseLinear
deriving DecidableEq

/-- The on-disk type tag of each codec, written first so that the open path
can dispatch without external hints (spec 4.2). -/
def codecTag : CodecType → Nat
  | .Bitpacked => 0
  | .BlockwiseLinear => 1

/-- Modelled from the spec (4.2): the Bitpacked codec stores a single
baseline (the minimum value, 8 bytes LE), a fixed bit width sufficient to
represent `max - min` (1 byte), the value count (4 bytes LE) and every
value encoded as `value - min` in that many bits, densely packed. -/
def bitpackedEnc (vals : List Nat) : List Nat :=
  let mn := natMin vals
  let w := numBits (natMax vals - mn)
  natToLE 8 mn ++ [w] ++ natToLE 4 vals.length ++
    natToLE (ceilDiv (w * vals.length) 8)
      (packChunks w (vals.map fun v => v - mn))

/-- Modelled from the spec (4.2): decoding reverses the subtraction given
the ordinal. -/
def bitpackedDec (b : List Nat) : Option (List Nat) :=
  if 13 ≤ b.length then
    let mn := leToNat (b.take 8)
    let w := b.getD 8 0
    let n := leToNat ((b.drop 9).take 4)
    let bigN := leToNat (b.drop 13)
    some ((List.range n).map fun i => mn + bigN / 2 ^ (w * i) % 2 ^ w)
  else none

theorem take_append_len {α : Type} (l1 l2 : List α) (k : Nat) (h : l1.length = k) :
    (l1 ++ l2).take k = l1 := by
  subst h
  induction l1 with
  | nil => simp
  | cons a t ih => simp [ih]

theorem drop_append_len {α : Type} (l1 l2 : List α) (k : Nat) (h : l1.length = k) :
    (l1 ++ l2).drop k = l2 := by
  subst h
  induction l1 with
  | nil => simp
  | cons a t ih => simp [ih]

theorem getD_append_len (l1 l2 : List Nat) (k : Nat) (h : l1.length = k) (d : Nat) :
    (l1 ++ l2).getD k d = l2.getD 0 d := by
  subst h
  induction l1 with
  | nil => simp
  | cons a t ih => simpa using ih

theorem bitpackedDec_parts (mn w n N cb : Nat) (hmn : mn < 2 ^ 64)
    (hn : n < 2 ^ 32) (hN : N < 2 ^ (8 * cb)) :
    bitpackedDec (natToLE 8 mn ++ [w] ++ natToLE 4 n ++ natToLE cb N) =
      some ((List.range n).map fun i => mn + N / 2 ^ (w * i) % 2 ^ w) := by
  have h8 : (natToLE 8 mn).length = 8 := natToLE_length _ _
  have h4 : (natToLE 4 n).length = 4 := natToLE_length _ _
  have hc : (natToLE cb N).length = cb := natToLE_length _ _
  have h9 : (natToLE 8 mn ++ [w]).length = 9 := by simp [h8]
  have h13 : (natToLE 8 mn ++ [w] ++ natToLE 4 n).length = 13 := by
    simp only [List.length_append, h8, h4]
    rfl
  have hlen : (natToLE 8 mn ++ [w] ++ natToLE 4 n ++ natToLE cb N).length = 13 + cb := by
    simp only [List.length_append, h13, hc]
  have htake8 : (natToLE 8 mn ++ [w] ++ natToLE 4 n ++ natToLE cb N).take 8 = natToLE 8 mn := by
    rw [List.append_assoc, List.append_assoc]
    exact take_append_len _ _ 8 h8
  have hgetD : (natToLE 8 mn ++ [w] ++ natToLE 4 n ++ natToLE cb N).getD 8 0 = w := by
    rw [List.append_assoc, List.append_assoc, getD_append_len _ _ 8 h8 0]
    rfl
  have hdrop9 : (natToLE 8 mn ++ [w] ++ natToLE 4 n ++ natToLE cb N).drop 9 =
      natToLE 4 n ++ natToLE cb N := by
    rw [List.append_assoc]
    exact drop_append_len _ _ 9 h9
  have hdrop13 : (natToLE 8 mn ++ [w] ++ natToLE 4 n ++ natToLE cb N).drop 13 =
      natToLE cb N :=
    drop_append_len _ _ 13 h13
  unfold bitpackedDec
  rw [if_pos (by rw [hlen]; omega)]
  simp only [htake8, hgetD, hdrop9, hdrop13]
  rw [take_append_len _ _ 4 h4]
  rw [leToNat_natToLE 8 mn (by simpa using hmn), leToNat_natToLE 4 n (by simpa using hn),
    leToNat_natToLE cb N hN]

theorem bitpackedDec_bitpackedEnc (vals : List Nat) (hb : ∀ v ∈ vals, v < 2 ^ 64)
    (hn : vals.length < 2 ^ 32) : bitpackedDec (bitpackedEnc vals) = some vals := by
  have hds : ∀ d ∈ vals.map (fun v => v - natMin vals),
      d < 2 ^ numBits (natMax vals - natMin vals) := by
    intro d hd
    obtain ⟨v, hv, hveq⟩ := List.mem_map.mp hd
    rw [← hveq]
    exact lt_two_pow_numBits (Nat.sub_le_sub_right (mem_le_natMax hv) _)
  have hN : packChunks (numBits (natMax vals - natMin vals))
        (vals.map fun v => v - natMin vals) <
      2 ^ (8 * ceilDiv (numBits (natMax vals - natMin vals) * vals.length) 8) := by
    calc packChunks _ _ < 2 ^ (numBits (natMax vals - natMin vals) *
        (vals.map fun v => v - natMin vals).length) := packChunks_lt _ _ hds
      _ ≤ _ := by
        apply Nat.pow_le_pow_right (by omega)
        rw [List.length_map]
        exact le_mul_ceilDiv _
  have henc : bitpackedEnc vals = natToLE 8 (natMin vals) ++
      [numBits (natMax vals - natMin vals)] ++ natToLE 4 vals.length ++
      natToLE (ceilDiv (numBits (natMax vals - natMin vals) * vals.length) 8)
        (packChunks (numBits (natMax vals - natMin vals))
          (vals.map fun v => v - natMin vals)) := rfl
  rw [henc, bitpackedDec_parts _ _ _ _ _ (natMin_lt_of_all (by norm_num) hb) hn hN]
  congr 1
  apply List.ext_getElem
  · simp
  · intro i h1 h2
    simp only [List.getElem_map, List.getElem_range]
    rw [packChunks_extract _ _ hds i (by simpa using h2)]
    rw [List.getD_eq_getElem _ _ (by simpa using h2)]
    simp only [List.getElem_map]
    have hle : natMin vals ≤ vals[i] := natMin_le_mem (List.getElem_mem h2)
    omega

/-- Minimum of a list of integers (`0` for the empty list). -/
def intMin : List Int → Int
  | [] => 0
  | h :: t => foldMin h t

/-- Maximum of a list of integers (`0` for the empty list). -/
def intMax : List Int → Int
  | [] => 0
  | h :: t => foldMax h t

theorem intMin_le_mem {l : List Int} {x : Int} (hx : x ∈ l) : intMin l ≤ x := by
  cases l with
  | nil => simp at hx
  | cons h t =>
    rcases List.mem_cons.mp hx with hxa | hxt
    · rw [hxa]; exact foldMin_le_init h t
    · exact foldMin_le_mem h hxt

theorem mem_le_intMax {l : List Int} {x : Int} (hx : x ∈ l) : x ≤ intMax l := by
  cases l with
  | nil => simp at hx
  | cons h t =>
    rcases List.mem_cons.mp hx with hxa | hxt
    · rw [hxa]; exact le_foldMax_init h t
    · exact mem_le_foldMax h hxt

theorem intMin_mem {l : List Int} (hl : l ≠ []) : intMin l ∈ l := by
  cases l with
  | nil => exact absurd rfl hl
  | cons h t => exact foldMin_mem h t

/-- The fixed block length of the BlockwiseLinear codec. -/
def blockLen : Nat := 512

/-- Splits a value sequence into blocks of (at most) `blockLen` values. -/
def chunkBlocks (l : List Nat) : List (List Nat) :=
  if l = [] then [] else l.take blockLen :: chunkBlocks (l.drop blockLen)
termination_by l.length
decreasing_by
  simp only [List.length_drop]
  have : l.length ≠ 0 := fun hc => by
    cases l with
    | nil => simp_all
    | cons a t => simp at hc
  simp [blockLen]
  omega

/-- Modelled from the spec (4.2): the linear prediction within a block,
interpolating between the two reference points (first and last value). -/
def predAt (v0 vL cnt i : Nat) : Int :=
  if cnt ≤ 1 then (v0 : Int)
  else (v0 : Int) + ((vL : Int) - (v0 : Int)) * (i : Int) / ((cnt : Int) - 1)

/-- The residual between actual and predicted value at each block position. -/
def blockResiduals (b : List Nat) : List Int :=
  (List.range b.length).map fun i =>
    (b.getD i 0 : Int) - predAt (b.headD 0) (b.getLastD 0) b.length i

/-- Modelled from the spec (4.2): the serialized form of one
BlockwiseLinear block: the two reference points (8 bytes LE each), the
residual baseline (16 bytes two's complement), the residual bit width
(1 byte) and the residuals minus the baseline densely packed. -/
def blockEnc (b : List Nat) : List Nat :=
  let rs := blockResiduals b
  let mr := intMin rs
  let w := numBits (intMax rs - mr).toNat
  natToLE 8 (b.headD 0) ++ natToLE 8 (b.getLastD 0) ++
    natToLE 16 (toTwos128 mr) ++ [w] ++
    natToLE (ceilDiv (w * b.length) 8)
      (packChunks w (rs.map fun r => (r - mr).toNat))

/-- Modelled from the spec (4.2): the BlockwiseLinear encoder partitions
the values into fixed-size blocks and serializes the value count followed
by each block. -/
def blockwiseEnc (vals : List Nat) : List Nat :=
  natToLE 4 vals.length ++ ((chunkBlocks vals).map blockEnc).flatten

/-- Decoding loop for BlockwiseLinear blocks: recomputes the predicted
value of each position and adds the stored residual. -/
def blockwiseDecBlocks (remaining : Nat) (b : List Nat) : Option (List Nat) :=
  if _hrem : remaining = 0 then some []
  else
    let cnt := min blockLen remaining
    if 33 ≤ b.length then
      let v0 := leToNat (b.take 8)
      let vL := leToNat ((b.drop 8).take 8)
      let mr := fromTwos128 (leToNat ((b.drop 16).take 16))
      let w := b.getD 32 0
      let cb := ceilDiv (w * cnt) 8
      if 33 + cb ≤ b.length then
        let N := leToNat ((b.drop 33).take cb)
        let blockVals := (List.range cnt).map fun i =>
          (predAt v0 vL cnt i + mr + ((N / 2 ^ (w * i) % 2 ^ w : Nat) : Int)).toNat
        match blockwiseDecBlocks (remaining - cnt) (b.drop (33 + cb)) with
        | some rest => some (blockVals ++ rest)
        | none => none
      else none
    else none
termination_by remaining
decreasing_by
  have : 0 < min blockLen remaining := by
    simp [blockLen]
    omega
  omega

/-- Modelled from the spec (4.2): the BlockwiseLinear decoder. -/
def blockwiseDec (b : List Nat) : Option (List Nat) :=
  if 4 ≤ b.length then blockwiseDecBlocks (leToNat (b.take 4)) (b.drop 4)
  else none

/-- Sum of the lengths of a list of blocks. -/
def sumLens (blocks : List (List Nat)) : Nat := (blocks.map List.length).sum

/-- The shape invariant produced by `chunkBlocks`: blocks are nonempty, at
most `blockLen` long, and all blocks except the last are exactly
`blockLen` long. -/
def chunkShaped : List (List Nat) → Prop
  | [] => True
  | b :: bs => b ≠ [] ∧ b.length ≤ blockLen ∧ (bs ≠ [] → b.length = blockLen) ∧
      chunkShaped bs

theorem chunkBlocks_nil : chunkBlocks [] = [] := by
  rw [chunkBlocks]
  simp

theorem chunkBlocks_eq_nil_iff (l : List Nat) : chunkBlocks l = [] ↔ l = [] := by
  constructor
  · intro h
    by_contra hl
    rw [chunkBlocks, if_neg hl] at h
    exact List.cons_ne_nil _ _ h
  · intro h
    rw [h]
    exact chunkBlocks_nil

theorem chunkBlocks_flatten_aux :
    ∀ n l, l.length ≤ n → (chunkBlocks l).flatten = l := by
  intro n
  induction n with
  | zero =>
    intro l hl
    have : l = [] := List.eq_nil_of_length_eq_zero (by omega)
    rw [this, chunkBlocks_nil]
    rfl
  | succ n ih =>
    intro l hl
    by_cases hnil : l = []
    · rw [hnil, chunkBlocks_nil]; rfl
    · rw [chunkBlocks, if_neg hnil]
      have hpos : 1 ≤ l.length := by
        cases l with
        | nil => exact absurd rfl hnil
        | cons a t => simp
      have hdrop : (l.drop blockLen).length ≤ n := by
        simp only [List.length_drop, blockLen]
        omega
      simp only [List.flatten_cons, ih (l.drop blockLen) hdrop]
      exact List.take_append_drop _ _

theorem chunkBlocks_flatten (l : List Nat) : (chunkBlocks l).flatten = l :=
  chunkBlocks_flatten_aux l.length l (le_refl _)

theorem sumLens_chunkBlocks_aux :
    ∀ n l, l.length ≤ n → sumLens (chunkBlocks l) = l.length := by
  intro n
  induction n with
  | zero =>
    intro l hl
    have : l = [] := List.eq_nil_of_length_eq_zero (by omega)
    rw [this, chunkBlocks_nil]
    rfl
  | succ n ih =>
    intro l hl
    by_cases hnil : l = []
    · rw [hnil, chunkBlocks_nil]
      rfl
    · rw [chunkBlocks, if_neg hnil]
      have hpos : 1 ≤ l.length := by
        cases l with
        | nil => exact absurd rfl hnil
        | cons a t => simp
      have hdrop : (l.drop blockLen).length ≤ n := by
        simp only [List.length_drop, blockLen]
        omega
      simp only [sumLens, List.map_cons, List.sum_cons]
      have := ih (l.drop blockLen) hdrop
      simp only [sumLens] at this
      rw [this]
      simp only [List.length_take, List.length_drop]
      omega

theorem sumLens_chunkBlocks (l : List Nat) : sumLens (chunkBlocks l) = l.length :=
  sumLens_chunkBlocks_aux l.length l (le_refl _)

theorem chunkShaped_chunkBlocks_aux :
    ∀ n l, l.length ≤ n → chunkShaped (chunkBlocks l) := by
  intro n
  induction n with
  | zero =>
    intro l hl
    have : l = [] := List.eq_nil_of_length_eq_zero (by omega)
    rw [this, chunkBlocks_nil]
    trivial
  | succ n ih =>
    intro l hl
    by_cases hnil : l = []
    · rw [hnil, chunkBlocks_nil]; trivial
    · rw [chunkBlocks, if_neg hnil]
      have hpos : 1 ≤ l.length := by
        cases l with
        | nil => exact absurd rfl hnil
        | cons a t => simp
      have hdrop : (l.drop blockLen).length ≤ n := by
        simp only [List.length_drop, blockLen]
        omega
      refine ⟨?_, ?_, ?_, ih _ hdrop⟩
      · intro hc
        have := congrArg List.length hc
        simp only [List.length_take, List.length_nil] at this
        simp only [blockLen] at this
        omega
      · simp [List.length_take]
      · intro hbs
        rw [ne_eq, chunkBlocks_eq_nil_iff] at hbs
        have : blockLen < l.length := by
          by_contra hle
          push_neg at hle
          exact hbs (List.drop_eq_nil_of_le hle)
        simp only [List.length_take]
        omega

theorem chunkShaped_chunkBlocks (l : List Nat) : chunkShaped (chunkBlocks l) :=
  chunkShaped_chunkBlocks_aux l.length l (le_refl _)

theorem chunkBlocks_mem_aux :
    ∀ n l b, l.length ≤ n → b ∈ chunkBlocks l → ∀ v ∈ b, v ∈ l := by
  intro n
  induction n with
  | zero =>
    intro l b hl hb
    have : l = [] := List.eq_nil_of_length_eq_zero (by omega)
    rw [this, chunkBlocks_nil] at hb
    simp at hb
  | succ n ih =>
    intro l b hl hb
    by_cases hnil : l = []
    · rw [hnil, chunkBlocks_nil] at hb
      simp at hb
    · rw [chunkBlocks, if_neg hnil] at hb
      have hpos : 1 ≤ l.length := by
        cases l with
        | nil => exact absurd rfl hnil
        | cons a t => simp
      have hdrop : (l.drop blockLen).length ≤ n := by
        simp only [List.length_drop, blockLen]
        omega
      rcases List.mem_cons.mp hb with hb1 | hb2
      · intro v hv
        rw [hb1] at hv
        exact List.mem_of_mem_take hv
      · intro v hv
        exact List.mem_of_mem_drop (ih _ _ hdrop hb2 v hv)

theorem chunkBlocks_mem (l : List Nat) (b : List Nat) (hb : b ∈ chunkBlocks l) :
    ∀ v ∈ b, v ∈ l :=
  chunkBlocks_mem_aux l.length l b (le_refl _) hb

theorem headD_mem {l : List Nat} (h : l ≠ []) : l.headD 0 ∈ l := by
  cases l with
  | nil => exact absurd rfl h
  | cons a t => exact List.mem_cons_self a t

theorem getLastD_mem_aux : ∀ (l : List Nat) (d : Nat), l ≠ [] → l.getLastD d ∈ l := by
  intro l
  induction l with
  | nil => intro d h; exact absurd rfl h
  | cons a t ih =>
    intro d _
    by_cases ht : t = []
    · subst ht
      simp [List.getLastD]
    · have : (a :: t).getLastD d = t.getLastD a := by
        cases t with
        | nil => exact absurd rfl ht
        | cons b u => rfl
      rw [this]
      exact List.mem_cons_of_mem a (ih a ht)

theorem getLastD_mem {l : List Nat} (h : l ≠ []) : l.getLastD 0 ∈ l :=
  getLastD_mem_aux l 0 h

theorem predAt_bound (v0 vL cnt i : Nat) (h0 : v0 < 2 ^ 64) (hL : vL < 2 ^ 64)
    (hi : i ≤ blockLen) :
    -(2 ^ 74 : Int) ≤ predAt v0 vL cnt i ∧ predAt v0 vL cnt i ≤ 2 ^ 74 := by
  unfold predAt
  split
  · constructor <;> omega
  · have habs : |((vL : Int) - v0) * (i : Int) / ((cnt : Int) - 1)| ≤
        |((vL : Int) - v0) * (i : Int)| := Int.abs_ediv_le_abs _ _
    have h1 : |((vL : Int) - v0) * (i : Int)| ≤ 2 ^ 73 := by
      rw [abs_mul]
      have hD : |(vL : Int) - v0| ≤ 2 ^ 64 := by
        rw [abs_le]
        constructor <;> omega
      have hI : |(i : Int)| ≤ 2 ^ 9 := by
        rw [abs_le]
        simp only [blockLen] at hi
        constructor <;> omega
      calc |(vL : Int) - v0| * |(i : Int)| ≤ 2 ^ 64 * 2 ^ 9 :=
            mul_le_mul hD hI (abs_nonneg _) (by norm_num)
        _ ≤ 2 ^ 73 := by norm_num
    have hq : -(2 ^ 73 : Int) ≤ ((vL : Int) - v0) * (i : Int) / ((cnt : Int) - 1) ∧
        ((vL : Int) - v0) * (i : Int) / ((cnt : Int) - 1) ≤ 2 ^ 73 :=
      abs_le.mp (le_trans habs h1)
    constructor <;> omega

theorem blockResiduals_length (b : List Nat) :
    (blockResiduals b).length = b.length := by
  simp [blockResiduals]

theorem blockResiduals_bound (b : List Nat) (hb : ∀ v ∈ b, v < 2 ^ 64)
    (hlen : b.length ≤ blockLen) {r : Int} (hr : r ∈ blockResiduals b) :
    -(2 ^ 75 : Int) ≤ r ∧ r ≤ 2 ^ 75 := by
  unfold blockResiduals at hr
  obtain ⟨i, hi, hreq⟩ := List.mem_map.mp hr
  rw [List.mem_range] at hi
  have hnil : b ≠ [] := by
    intro hc
    rw [hc] at hi
    simp at hi
  have hv : b.getD i 0 < 2 ^ 64 := by
    rw [List.getD_eq_getElem _ _ hi]
    exact hb _ (List.getElem_mem hi)
  have h0 : b.headD 0 < 2 ^ 64 := hb _ (headD_mem hnil)
  have hL : b.getLastD 0 < 2 ^ 64 := hb _ (getLastD_mem hnil)
  have hp := predAt_bound (b.headD 0) (b.getLastD 0) b.length i h0 hL (by omega)
  rw [← hreq]
  constructor <;> omega

theorem getD_eq_headD_drop : ∀ (l : List Nat) (n d : Nat),
    l.getD n d = (l.drop n).headD d := by
  intro l
  induction l with
  | nil => intro n d; simp
  | cons a t ih =>
    intro n d
    cases n with
    | zero => simp
    | succ n => simp only [List.getD_cons_succ, List.drop_succ_cons, ih n d]

/-- The byte layout of one serialized BlockwiseLinear block followed by the
rest of the stream. -/
def blockLayoutBytes (v0 vL m w cb N : Nat) (s : List Nat) : List Nat :=
  natToLE 8 v0 ++ natToLE 8 vL ++ natToLE 16 m ++ [w] ++ natToLE cb N ++ s

theorem blockLayout_facts (v0 vL m w cb N : Nat) (s : List Nat) :
    (blockLayoutBytes v0 vL m w cb N s).take 8 = natToLE 8 v0 ∧
    ((blockLayoutBytes v0 vL m w cb N s).drop 8).take 8 = natToLE 8 vL ∧
    ((blockLayoutBytes v0 vL m w cb N s).drop 16).take 16 = natToLE 16 m ∧
    (blockLayoutBytes v0 vL m w cb N s).getD 32 0 = w ∧
    ((blockLayoutBytes v0 vL m w cb N s).drop 33).take cb = natToLE cb N ∧
    (blockLayoutBytes v0 vL m w cb N s).drop (33 + cb) = s ∧
    (blockLayoutBytes v0 vL m w cb N s).length = 33 + cb + s.length := by
  have h8a : (natToLE 8 v0).length = 8 := natToLE_length _ _
  have h8b : (natToLE 8 vL).length = 8 := natToLE_length _ _
  have h16 : (natToLE 16 m).length = 16 := natToLE_length _ _
  have hcb : (natToLE cb N).length = cb := natToLE_length _ _
  have hassoc : blockLayoutBytes v0 vL m w cb N s =
      natToLE 8 v0 ++ (natToLE 8 vL ++ (natToLE 16 m ++ ([w] ++ (natToLE cb N ++ s)))) := by
    simp [blockLayoutBytes, List.append_assoc]
  have hd8 : (blockLayoutBytes v0 vL m w cb N s).drop 8 =
      natToLE 8 vL ++ (natToLE 16 m ++ ([w] ++ (natToLE cb N ++ s))) := by
    rw [hassoc]
    exact drop_append_len _ _ 8 h8a
  have hd16 : (blockLayoutBytes v0 vL m w cb N s).drop 16 =
      natToLE 16 m ++ ([w] ++ (natToLE cb N ++ s)) := by
    have hsplit : (blockLayoutBytes v0 vL m w cb N s).drop 16 =
        ((blockLayoutBytes v0 vL m w cb N s).drop 8).drop 8 := by
      rw [List.drop_drop]
    rw [hsplit, hd8]
    exact drop_append_len _ _ 8 h8b
  have hd32 : (blockLayoutBytes v0 vL m w cb N s).drop 32 =
      [w] ++ (natToLE cb N ++ s) := by
    have hsplit : (blockLayoutBytes v0 vL m w cb N s).drop 32 =
        ((blockLayoutBytes v0 vL m w cb N s).drop 16).drop 16 := by
      rw [List.drop_drop]
    rw [hsplit, hd16]
    exact drop_append_len _ _ 16 h16
  have hd33 : (blockLayoutBytes v0 vL m w cb N s).drop 33 = natToLE cb N ++ s := by
    have hsplit : (blockLayoutBytes v0 vL m w cb N s).drop 33 =
        ((blockLayoutBytes v0 vL m w cb N s).drop 32).drop 1 := by
      rw [List.drop_drop]
    rw [hsplit, hd32]
    rfl
  refine ⟨?_, ?_, ?_, ?_, ?_, ?_, ?_⟩
  · rw [hassoc]
    exact take_append_len _ _ 8 h8a
  · rw [hd8]
    exact take_append_len _ _ 8 h8b
  · rw [hd16]
    exact take_append_len _ _ 16 h16
  · rw [getD_eq_headD_drop, hd32]
    rfl
  · rw [hd33]
    exact take_append_len _ _ cb hcb
  · have hsplit : (blockLayoutBytes v0 vL m w cb N s).drop (33 + cb) =
        ((blockLayoutBytes v0 vL m w cb N s).drop 33).drop cb := by
      rw [List.drop_drop, Nat.add_comm]
    rw [hsplit, hd33]
    exact drop_append_len _ _ cb hcb
  · simp [blockLayoutBytes, h8a, h8b, h16, hcb]
    omega

theorem blockShift_lt (b : List Nat) :
    ∀ d ∈ (blockResiduals b).map
        (fun r => (r - intMin (blockResiduals b)).toNat),
      d < 2 ^ numBits (intMax (blockResiduals b) - intMin (blockResiduals b)).toNat := by
  intro d hd
  obtain ⟨r, hr, hreq⟩ := List.mem_map.mp hd
  rw [← hreq]
  exact lt_two_pow_numBits (Int.toNat_le_toNat (sub_le_sub_right (mem_le_intMax hr) _))

theorem blockVals_eq (b : List Nat) :
    (List.range b.length).map (fun i =>
      (predAt (b.headD 0) (b.getLastD 0) b.length i + intMin (blockResiduals b) +
        ((packChunks (numBits (intMax (blockResiduals b) - intMin (blockResiduals b)).toNat)
            ((blockResiduals b).map fun r => (r - intMin (blockResiduals b)).toNat) /
            2 ^ (numBits (intMax (blockResiduals b) - intMin (blockResiduals b)).toNat * i) %
            2 ^ numBits (intMax (blockResiduals b) - intMin (blockResiduals b)).toNat : Nat) :
          Int)).toNat) = b := by
  apply List.ext_getElem
  · simp
  · intro i h1 h2
    have hi : i < b.length := by simpa using h1
    have hshlen : i < ((blockResiduals b).map
        (fun r => (r - intMin (blockResiduals b)).toNat)).length := by
      simp [blockResiduals_length, hi]
    simp only [List.getElem_map, List.getElem_range]
    rw [packChunks_extract _ _ (blockShift_lt b) i hshlen]
    rw [List.getD_eq_getElem _ _ hshlen]
    simp only [List.getElem_map]
    have hrs : i < (blockResiduals b).length := by
      rw [blockResiduals_length]
      exact hi
    have hrsi : (blockResiduals b)[i] =
        (b.getD i 0 : Int) - predAt (b.headD 0) (b.getLastD 0) b.length i := by
      simp [blockResiduals]
    have hmem : (blockResiduals b)[i] ∈ blockResiduals b := List.getElem_mem _
    have hmr : intMin (blockResiduals b) ≤ (blockResiduals b)[i] := intMin_le_mem hmem
    rw [hrsi] at hmr ⊢
    rw [List.getD_eq_getElem _ _ hi] at hmr ⊢
    omega

theorem blockwiseDecBlocks_step (remaining : Nat) (b rest : List Nat)
    (hbnil : b ≠ []) (hvb : ∀ v ∈ b, v < 2 ^ 64) (hble : b.length ≤ blockLen)
    (hcnt : min blockLen remaining = b.length) (hrem : remaining ≠ 0) :
    blockwiseDecBlocks remaining (blockEnc b ++ rest) =
      match blockwiseDecBlocks (remaining - b.length) rest with
      | some tail => some (b ++ tail)
      | none => none := by
  have hbpos : 1 ≤ b.length := by
    cases b with
    | nil => exact absurd rfl hbnil
    | cons x t => simp
  have hrsnil : blockResiduals b ≠ [] := by
    intro hc
    have hlen0 := congrArg List.length hc
    rw [blockResiduals_length] at hlen0
    simp only [List.length_nil] at hlen0
    omega
  have hmrB := blockResiduals_bound b hvb hble (intMin_mem hrsnil)
  have hv0 : b.headD 0 < 2 ^ 64 := hvb _ (headD_mem hbnil)
  have hvL : b.getLastD 0 < 2 ^ 64 := hvb _ (getLastD_mem hbnil)
  have hN : packChunks (numBits (intMax (blockResiduals b) - intMin (blockResiduals b)).toNat)
      ((blockResiduals b).map fun r => (r - intMin (blockResiduals b)).toNat) <
      2 ^ (8 * ceilDiv
        (numBits (intMax (blockResiduals b) - intMin (blockResiduals b)).toNat * b.length) 8) := by
    calc packChunks _ _ < 2 ^ (numBits (intMax (blockResiduals b) - intMin (blockResiduals b)).toNat *
        ((blockResiduals b).map fun r => (r - intMin (blockResiduals b)).toNat).length) :=
          packChunks_lt _ _ (blockShift_lt b)
      _ ≤ _ := by
        apply Nat.pow_le_pow_right (by omega)
        rw [List.length_map, blockResiduals_length]
        exact le_mul_ceilDiv _
  have henc : blockEnc b ++ rest = blockLayoutBytes (b.headD 0) (b.getLastD 0)
      (toTwos128 (intMin (blockResiduals b)))
      (numBits (intMax (blockResiduals b) - intMin (blockResiduals b)).toNat)
      (ceilDiv (numBits (intMax (blockResiduals b) - intMin (blockResiduals b)).toNat * b.length) 8)
      (packChunks (numBits (intMax (blockResiduals b) - intMin (blockResiduals b)).toNat)
        ((blockResiduals b).map fun r => (r - intMin (blockResiduals b)).toNat)) rest := rfl
  obtain ⟨ht8, hd8t, hd16t, hg32, hd33t, hdropAll, hlen⟩ :=
    blockLayout_facts (b.headD 0) (b.getLastD 0)
      (toTwos128 (intMin (blockResiduals b)))
      (numBits (intMax (blockResiduals b) - intMin (blockResiduals b)).toNat)
      (ceilDiv (numBits (intMax (blockResiduals b) - intMin (blockResiduals b)).toNat * b.length) 8)
      (packChunks (numBits (intMax (blockResiduals b) - intMin (blockResiduals b)).toNat)
        ((blockResiduals b).map fun r => (r - intMin (blockResiduals b)).toNat)) rest
  rw [henc, blockwiseDecBlocks, dif_neg hrem]
  simp only [hcnt, hg32, ht8, hd8t, hd16t, hd33t, hdropAll, hlen]
  rw [if_pos (by omega), if_pos (by omega)]
  rw [leToNat_natToLE 8 _ hv0, leToNat_natToLE 8 _ hvL,
    leToNat_natToLE 16 _ (toTwos128_lt _), leToNat_natToLE _ _ hN]
  rw [fromTwos128_toTwos128 _ (by omega) (by omega)]
  rw [blockVals_eq b]

theorem blockwiseDecBlocks_flatten :
    ∀ (blocks : List (List Nat)), chunkShaped blocks →
      (∀ b ∈ blocks, ∀ v ∈ b, v < 2 ^ 64) →
      blockwiseDecBlocks (sumLens blocks) ((blocks.map blockEnc).flatten) =
        some blocks.flatten := by
  intro blocks
  induction blocks with
  | nil =>
    intro _ _
    rw [blockwiseDecBlocks]
    simp [sumLens]
  | cons b bs ih =>
    intro hsh hv
    obtain ⟨hbnil, hble, hbfull, hshbs⟩ := hsh
    have hvb : ∀ v ∈ b, v < 2 ^ 64 := hv b (List.mem_cons_self b bs)
    have hvbs : ∀ x ∈ bs, ∀ v ∈ x, v < 2 ^ 64 :=
      fun x hx => hv x (List.mem_cons_of_mem b hx)
    have hbpos : 1 ≤ b.length := by
      cases b with
      | nil => exact absurd rfl hbnil
      | cons x t => simp
    have hrem : sumLens (b :: bs) = b.length + sumLens bs := by simp [sumLens]
    have hcnt : min blockLen (sumLens (b :: bs)) = b.length := by
      by_cases hbs : bs = []
      · subst hbs
        rw [hrem]
        have h0 : sumLens ([] : List (List Nat)) = 0 := rfl
        rw [h0]
        omega
      · rw [hrem, hbfull hbs]
        omega
    simp only [List.map_cons, List.flatten_cons]
    rw [blockwiseDecBlocks_step (sumLens (b :: bs)) b ((bs.map blockEnc).flatten)
      hbnil hvb hble hcnt (by rw [hrem]; omega)]
    rw [hrem]
    have harith : b.length + sumLens bs - b.length = sumLens bs := by omega
    rw [harith, ih hshbs hvbs]

theorem blockwiseDec_blockwiseEnc (vals : List Nat) (hb : ∀ v ∈ vals, v < 2 ^ 64)
    (hn : vals.length < 2 ^ 32) : blockwiseDec (blockwiseEnc vals) = some vals := by
  unfold blockwiseEnc blockwiseDec
  have h4 : (natToLE 4 vals.length).length = 4 := natToLE_length _ _
  rw [if_pos (by simp only [List.length_append, h4]; omega)]
  rw [take_append_len _ _ 4 h4, drop_append_len _ _ 4 h4]
  rw [leToNat_natToLE 4 _ hn]
  have hmain := blockwiseDecBlocks_flatten (chunkBlocks vals) (chunkShaped_chunkBlocks vals)
    (fun b hb2 v hv => hb v (chunkBlocks_mem vals b hb2 v hv))
  rw [sumLens_chunkBlocks] at hmain
  rw [hmain, chunkBlocks_flatten]

/-- Modelled from the spec (4.2): each candidate codec can estimate its own
serialized size over the value sequence; this model estimates with the
exact encoded size. -/
def codecEstimate : CodecType → List Nat → Nat
  | .Bitpacked, vals => (bitpackedEnc vals).length
  | .BlockwiseLinear, vals => (blockwiseEnc vals).length

/-- Dispatch to the encoder of one codec. -/
def codecEncode : CodecType → List Nat → List Nat
  | .Bitpacked, vals => bitpackedEnc vals
  | .BlockwiseLinear, vals => blockwiseEnc vals

/-- Modelled from the spec (4.2): for each candidate, compute the estimated
serialized size and pick the candidate with the smallest estimate; ties are
broken by candidate declaration order for determinism. -/
def selectCodec (codecs : List CodecType) (vals : List Nat) : CodecType :=
  match codecs with
  | [] => CodecType.Bitpacked
  | c :: cs => cs.foldl
      (fun best c2 => if codecEstimate c2 vals < codecEstimate best vals then c2 else best) c

/-- Modelled from the spec (4.2): the chosen codec type tag is written
first so the open path can dispatch without external hints, followed by
the codec payload. -/
def serialize_u64_based_column_values (codecs : List CodecType) (vals : List Nat) :
    List Nat :=
  codecTag (selectCodec codecs vals) :: codecEncode (selectCodec codecs vals) vals

/-- Modelled from the spec (4.2): the open path dispatches on the leading
codec type tag. -/
def load_u64_based_column_values (b : List Nat) : Option (List Nat) :=
  match b with
  | [] => none
  | t :: rest =>
    if t = 0 then bitpackedDec rest
    else if t = 1 then blockwiseDec rest
    else none

theorem foldl_select_mem (vals : List Nat) :
    ∀ (cs : List CodecType) (c : CodecType),
      cs.foldl (fun best c2 =>
          if codecEstimate c2 vals < codecEstimate best vals then c2 else best) c ∈
        c :: cs := by
  intro cs
  induction cs with
  | nil => intro c; simp
  | cons a t ih =>
    intro c
    simp only [List.foldl_cons]
    rcases List.mem_cons.mp (ih (if codecEstimate a vals < codecEstimate c vals then a else c))
      with h1 | h2
    · rw [h1]
      split
      · exact List.mem_cons_of_mem _ (List.mem_cons_self _ _)
      · exact List.mem_cons_self _ _
    · exact List.mem_cons_of_mem _ (List.mem_cons_of_mem _ h2)

theorem selectCodec_mem (codecs : List CodecType) (vals : List Nat)
    (h : codecs ≠ []) : selectCodec codecs vals ∈ codecs := by
  cases codecs with
  | nil => exact absurd rfl h
  | cons c cs => exact foldl_select_mem vals cs c

theorem load_serialize_u64 (codecs : List CodecType) (vals : List Nat)
    (hb : ∀ v ∈ vals, v < 2 ^ 64) (hn : vals.length < 2 ^ 32) :
    load_u64_based_column_values (serialize_u64_based_column_values codecs vals) =
      some vals := by
  unfold serialize_u64_based_column_values load_u64_based_column_values
  cases selectCodec codecs vals with
  | Bitpacked =>
    simp [codecTag, codecEncode, bitpackedDec_bitpackedEnc vals hb hn]
  | BlockwiseLinear =>
    simp [codecTag, codecEncode, blockwiseDec_blockwiseEnc vals hb hn]

/-! ## u128 direct encoder (modelled from the spec, 4.3) -/

/-- Modelled from the spec (4.3): values in the 128-bit domain are written
with one fixed strategy sized for the full domain (16 bytes LE per value),
with no candidate selection. -/
def serialize_column_values_u128 (vals : List Nat) : List Nat :=
  (vals.map (natToLE 16)).flatten

/-- Modelled from the spec (4.3): the single fixed decode path of the u128
direct encoder. -/
def open_u128_mapped (b : List Nat) : Option (List Nat) :=
  if b.length % 16 = 0 then
    some ((List.range (b.length / 16)).map fun i => leToNat ((b.drop (16 * i)).take 16))
  else none

theorem u128_flatten_length (vals : List Nat) :
    ((vals.map (natToLE 16)).flatten).length = 16 * vals.length := by
  induction vals with
  | nil => simp
  | cons v t ih =>
    simp only [List.map_cons, List.flatten_cons, List.length_append, ih,
      natToLE_length, List.length_cons]
    ring

theorem u128_flatten_extract (vals : List Nat) :
    ∀ i, (hi : i < vals.length) →
      (((vals.map (natToLE 16)).flatten).drop (16 * i)).take 16 = natToLE 16 vals[i] := by
  induction vals with
  | nil => intro i hi; simp at hi
  | cons v t ih =>
    intro i hi
    cases i with
    | zero =>
      simp only [Nat.mul_zero, List.drop_zero, List.map_cons, List.flatten_cons]
      exact take_append_len _ _ 16 (natToLE_length _ _)
    | succ i =>
      have hdd : ∀ l : List Nat, (l.drop 16).drop (16 * i) = l.drop (16 * (i + 1)) := by
        intro l
        rw [List.drop_drop]
        congr 1
        ring
      rw [← hdd]
      simp only [List.map_cons, List.flatten_cons]
      rw [drop_append_len _ _ 16 (natToLE_length _ _)]
      rw [ih i (by simpa using Nat.lt_of_succ_lt_succ hi)]
      simp

theorem open_u128_serialize (vals : List Nat) (hb : ∀ v ∈ vals, v < 2 ^ 128) :
    open_u128_mapped (serialize_column_values_u128 vals) = some vals := by
  unfold open_u128_mapped serialize_column_values_u128
  rw [if_pos (by rw [u128_flatten_length]; omega)]
  have hdiv : ((vals.map (natToLE 16)).flatten).length / 16 = vals.length := by
    rw [u128_flatten_length]
    omega
  rw [hdiv]
  congr 1
  apply List.ext_getElem
  · simp
  · intro i h1 h2
    simp only [List.getElem_map, List.getElem_range]
    rw [u128_flatten_extract vals i (by simpa using h2)]
    exact leToNat_natToLE 16 _ (hb _ (List.getElem_mem (by simpa using h2)))

/-! ## Column index (modelled from the spec, 4.4) -/

/-- The three field-multiplicity regimes of a column index (spec 4.4). -/
inductive Cardinality where
  | full
  | optional
  | multivalued
deriving DecidableEq

/-- Modelled from the spec (3, 4.4): a serializable column index,
polymorphic over the dense (full), optional and multivalued shapes.
The dense shape stores only the document count; the optional shape stores
one flag per document; the multivalued shape stores one value count per
document (ordinals form a per-document contiguous range). -/
inductive SerializableColumnIndex where
  | full (numDocs : Nat)
  | optional (nonNullRows : List Bool)
  | multivalued (rowLens : List Nat)
deriving DecidableEq

/-- The index shape. -/
def indexCardinality : SerializableColumnIndex → Cardinality
  | .full _ => .full
  | .optional _ => .optional
  | .multivalued _ => .multivalued

/-- The number of documents covered by the index. -/
def indexNumDocs : SerializableColumnIndex → Nat
  | .full n => n
  | .optional flags => flags.length
  | .multivalued lens => lens.length

/-- Number of `true` flags in a list. -/
def countTrue (l : List Bool) : Nat := (l.filter (fun b => b)).length

/-- The value-slot ordinals of one document (0, 1 or many, spec 4.4). -/
def rowOrdinals : SerializableColumnIndex → Nat → List Nat
  | .full _, d => [d]
  | .optional flags, d =>
    if flags.getD d false then [countTrue (flags.take d)] else []
  | .multivalued lens, d =>
    (List.range (lens.getD d 0)).map fun j => (lens.take d).sum + j

/-- Modelled from the spec (4.4, 9): the column index serialization: a
shape tag, the document count (4 bytes LE), then the shape payload. The
byte count it reports to the driver (for the footer) is the length of
this list. -/
def serialize_column_index : SerializableColumnIndex → List Nat
  | .full n => 0 :: natToLE 4 n
  | .optional flags =>
    1 :: natToLE 4 flags.length ++ flags.map (fun b => if b then 1 else 0)
  | .multivalued lens =>
    2 :: natToLE 4 lens.length ++ (lens.map vintEnc).flatten

/-- Sequential decoding of `n` VInt values. -/
def decodeVints : Nat → List Nat → Option (List Nat)
  | 0, _ => some []
  | n + 1, b =>
    match vintDec b with
    | some (v, r) =>
      match decodeVints n r with
      | some t => some (v :: t)
      | none => none
    | none => none

/-- Modelled from the spec (4.4): reconstructing a column index from its
serialized bytes, dispatching on the shape tag. -/
def open_column_index (b : List Nat) : Option SerializableColumnIndex :=
  if b = [] then none
  else
    let tag := b.headD 0
    let rest := b.tail
    if tag = 0 then
      if 4 ≤ rest.length then some (.full (leToNat (rest.take 4))) else none
    else if tag = 1 then
      if 4 ≤ rest.length then
        let n := leToNat (rest.take 4)
        if n ≤ (rest.drop 4).length then
          some (.optional (((rest.drop 4).take n).map fun byte =>
            if byte = 0 then false else true))
        else none
      else none
    else if tag = 2 then
      if 4 ≤ rest.length then
        let n := leToNat (rest.take 4)
        match decodeVints n (rest.drop 4) with
        | some lens => some (.multivalued lens)
        | none => none
      else none
    else none

theorem decodeVints_enc (lens : List Nat) :
    decodeVints lens.length ((lens.map vintEnc).flatten) = some lens := by
  induction lens with
  | nil => rfl
  | cons v t ih =>
    simp only [List.length_cons, List.map_cons, List.flatten_cons, decodeVints]
    rw [vintDec_vintEnc]
    simp [ih]

theorem take_len_self {α : Type} (l : List α) (k : Nat) (h : l.length = k) :
    l.take k = l := by
  have := take_append_len l [] k h
  simpa using this

theorem open_serialize_column_index (idx : SerializableColumnIndex)
    (hd : indexNumDocs idx < 2 ^ 32) :
    open_column_index (serialize_column_index idx) = some idx := by
  cases idx with
  | full n =>
    simp only [indexNumDocs] at hd
    have h4 : (natToLE 4 n).length = 4 := natToLE_length _ _
    simp only [serialize_column_index, open_column_index, List.cons_append,
      List.cons_ne_nil, List.headD_cons, List.tail_cons, if_true, if_false]
    rw [if_pos (by rw [h4]), take_len_self _ 4 h4, leToNat_natToLE 4 n hd]
  | optional flags =>
    simp only [indexNumDocs] at hd
    have h4 : (natToLE 4 flags.length).length = 4 := natToLE_length _ _
    have hc1 : (4 : Nat) ≤ (natToLE 4 flags.length ++
        flags.map (fun b => if b then (1 : Nat) else 0)).length := by
      simp only [List.length_append, h4]
      omega
    have hc2 : flags.length ≤ (flags.map (fun b => if b then (1 : Nat) else 0)).length := by
      simp
    simp only [serialize_column_index, open_column_index, List.cons_append,
      List.cons_ne_nil, List.headD_cons, List.tail_cons, if_true, if_false]
    rw [if_pos hc1]
    rw [take_append_len _ _ 4 h4, drop_append_len _ _ 4 h4,
      leToNat_natToLE 4 _ hd]
    rw [if_pos hc2]
    rw [take_len_self _ flags.length (by simp)]
    rw [List.map_map]
    have hfun : ((fun byte => if byte = 0 then false else true) ∘
        fun b => if b then (1 : Nat) else 0) = id := by
      funext b
      cases b <;> simp
    rw [hfun, List.map_id]
    simp [hc1]
    omega
  | multivalued lens =>
    simp only [indexNumDocs] at hd
    have h4 : (natToLE 4 lens.length).length = 4 := natToLE_length _ _
    have hc1 : (4 : Nat) ≤ (natToLE 4 lens.length ++
        (lens.map vintEnc).flatten).length := by
      simp only [List.length_append, h4]
      omega
    simp only [serialize_column_index, open_column_index, List.cons_append,
      List.cons_ne_nil, List.headD_cons, List.tail_cons, if_true, if_false]
    rw [if_pos hc1]
    rw [take_append_len _ _ 4 h4, drop_append_len _ _ 4 h4,
      leToNat_natToLE 4 _ hd]
    rw [decodeVints_enc]
    simp [hc1]
    omega

/-! ## Serialization/open drivers (from `columnar/src/column/serialize.rs`) -/

/-- Model of the `std::io::ErrorKind` values this code produces. -/
inductive IoErrKind where
  | invalidData
  | unexpectedEof
  | other
deriving DecidableEq

/-- Model of `std::io::Error`: a kind plus a message. -/
structure IoErr where
  kind : IoErrKind
  msg : String
deriving DecidableEq

/-- The composition of a column index and a column values reader
(`Column` in `column/mod.rs`); values are stored in their monotonic
u64/u128-mapped form. -/
structure Column where
  idx : SerializableColumnIndex
  values : List Nat
deriving DecidableEq

/-- `serialize_column_mappable_to_u64` (serialize.rs lines 32 to 46): writes
the serialized column index, then the values through the u64 codec layer
offering the candidate set `[Bitpacked, BlockwiseLinear]`, then a 4-byte LE
integer holding the byte count the column-index serializer reported. -/
def serialize_column_mappable_to_u64 (column_index : SerializableColumnIndex)
    (column_values : List Nat) : List Nat :=
  let column_index_bytes := serialize_column_index column_index
  let column_index_num_bytes := column_index_bytes.length
  column_index_bytes ++
    serialize_u64_based_column_values [CodecType.Bitpacked, CodecType.BlockwiseLinear]
      column_values ++
    natToLE 4 column_index_num_bytes

/-- `serialize_column_mappable_to_u128` (serialize.rs lines 16 to 30): writes
the serialized column index, then the values through the u128 direct
encoder, then a 4-byte LE integer holding the byte count the column-index
serializer reported. -/
def serialize_column_mappable_to_u128 (column_index : SerializableColumnIndex)
    (column_values : List Nat) : List Nat :=
  let column_index_bytes := serialize_column_index column_index
  let column_index_num_bytes := column_index_bytes.length
  column_index_bytes ++
    serialize_column_values_u128 column_values ++
    natToLE 4 column_index_num_bytes

/-- `open_column_u64` (serialize.rs lines 48 to 64): split off the trailing
4 bytes (`rsplit(4)`) and read them as the LE index length, split the body
at that length measured from the front, open the two segments and compose
them.  The bounds behavior of `OwnedBytes::rsplit`/`split` (common crate,
not under src) is modelled from the spec (4.1): a buffer shorter than the
footer, or a recorded length exceeding the body, is an I/O error. -/
def open_column_u64 (bytes : List Nat) : Except IoErr Column :=
  if bytes.length < 4 then
    .error ⟨.unexpectedEof, "buffer shorter than the 4-byte footer"⟩
  else
    let body := bytes.take (bytes.length - 4)
    let column_index_num_bytes := leToNat (bytes.drop (bytes.length - 4))
    if body.length < column_index_num_bytes then
      .error ⟨.invalidData, "recorded column index length exceeds body"⟩
    else
      let column_index_data := body.take column_index_num_bytes
      let column_values_data := body.drop column_index_num_bytes
      match open_column_index column_index_data with
      | none => .error ⟨.invalidData, "failed to open column index"⟩
      | some column_index =>
        match load_u64_based_column_values column_values_data with
        | none => .error ⟨.invalidData, "failed to load u64 column values"⟩
        | some column_values => .ok ⟨column_index, column_values⟩

/-- `open_column_u128` (serialize.rs lines 66 to 83): identical framing to
`open_column_u64`, with the u128 direct decoder for the values segment. -/
def open_column_u128 (bytes : List Nat) : Except IoErr Column :=
  if bytes.length < 4 then
    .error ⟨.unexpectedEof, "buffer shorter than the 4-byte footer"⟩
  else
    let body := bytes.take (bytes.length - 4)
    let column_index_num_bytes := leToNat (bytes.drop (bytes.length - 4))
    if body.length < column_index_num_bytes then
      .error ⟨.invalidData, "recorded column index length exceeds body"⟩
    else
      let column_index_data := body.take column_index_num_bytes
      let column_values_data := body.drop column_index_num_bytes
      match open_column_index column_index_data with
      | none => .error ⟨.invalidData, "failed to open column index"⟩
      | some column_index =>
        match open_u128_mapped column_values_data with
        | none => .error ⟨.invalidData, "failed to load u128 column values"⟩
        | some column_values => .ok ⟨column_index, column_values⟩

/-- Modelled from the spec (3, 6): the sorted term table of the sstable
crate (not under src), shared read-only across readers. -/
structure Dictionary where
  terms : List (List Nat)
deriving DecidableEq

/-- Sequential decoding of `n` length-prefixed terms. -/
def readTerms : Nat → List Nat → Option (List (List Nat))
  | 0, _ => some []
  | n + 1, b =>
    match vintDec b with
    | some (len, r) =>
      if len ≤ r.length then
        match readTerms n (r.drop len) with
        | some t => some (r.take len :: t)
        | none => none
      else none
    | none => none

/-- Modelled from the spec (6): `Dictionary::from_bytes` of the sstable
crate (not under src): reconstructs the term table from its own segment. -/
def dictionaryFromBytes (b : List Nat) : Option Dictionary :=
  if 4 ≤ b.length then
    match readTerms (leToNat (b.take 4)) (b.drop 4) with
    | some terms => some ⟨terms⟩
    | none => none
  else none

/-- The composition of a shared dictionary and a nested u64 column of term
ordinals (`BytesColumn` in `column/mod.rs`). -/
structure BytesColumn where
  dictionary : Dictionary
  term_ord_column : Column
deriving DecidableEq

/-- `open_column_bytes` (serialize.rs lines 85 to 96): split off the
trailing 4 bytes as the LE dictionary length, split the body at that
length from the front, open the `Dictionary` from the first segment and
the nested u64 term-ordinal column from the second, and compose them.
In the source the dictionary is placed under `Arc` (shared reference
counting); ownership is not modelled here.  The bounds behavior of
`OwnedBytes::rsplit`/`split` is modelled from the spec (4.1) as in
`open_column_u64`. -/
def open_column_bytes (data : List Nat) : Except IoErr BytesColumn :=
  if data.length < 4 then
    .error ⟨.unexpectedEof, "buffer shorter than the 4-byte footer"⟩
  else
    let body := data.take (data.length - 4)
    let dictionary_len := leToNat (data.drop (data.length - 4))
    if body.length < dictionary_len then
      .error ⟨.invalidData, "recorded dictionary length exceeds body"⟩
    else
      let dictionary_bytes := body.take dictionary_len
      let column_bytes := body.drop dictionary_len
      match dictionaryFromBytes dictionary_bytes with
      | none => .error ⟨.invalidData, "failed to open dictionary"⟩
      | some dictionary =>
        match open_column_u64 column_bytes with
        | .error e => .error e
        | .ok term_ord_column => .ok ⟨dictionary, term_ord_column⟩

/-- Reading one document of a column: map each ordinal the index yields to
the value stored at that slot (spec 3, 4.4). -/
def readDoc (idx : SerializableColumnIndex) (values : List Nat) (d : Nat) :
    List Nat :=
  (rowOrdinals idx d).map fun o => values.getD o 0

theorem open_column_u64_split (bytes : List Nat) (h4 : 4 ≤ bytes.length)
    (hL : leToNat (bytes.drop (bytes.length - 4)) ≤
      (bytes.take (bytes.length - 4)).length) :
    open_column_u64 bytes =
      match open_column_index ((bytes.take (bytes.length - 4)).take
          (leToNat (bytes.drop (bytes.length - 4)))) with
      | none => .error ⟨.invalidData, "failed to open column index"⟩
      | some column_index =>
        match load_u64_based_column_values ((bytes.take (bytes.length - 4)).drop
            (leToNat (bytes.drop (bytes.length - 4)))) with
        | none => .error ⟨.invalidData, "failed to load u64 column values"⟩
        | some column_values => .ok ⟨column_index, column_values⟩ := by
  unfold open_column_u64
  rw [if_neg (by omega), if_neg (by omega)]

theorem open_column_u128_split (bytes : List Nat) (h4 : 4 ≤ bytes.length)
    (hL : leToNat (bytes.drop (bytes.length - 4)) ≤
      (bytes.take (bytes.length - 4)).length) :
    open_column_u128 bytes =
      match open_column_index ((bytes.take (bytes.length - 4)).take
          (leToNat (bytes.drop (bytes.length - 4)))) with
      | none => .error ⟨.invalidData, "failed to open column index"⟩
      | some column_index =>
        match open_u128_mapped ((bytes.take (bytes.length - 4)).drop
            (leToNat (bytes.drop (bytes.length - 4)))) with
        | none => .error ⟨.invalidData, "failed to load u128 column values"⟩
        | some column_values => .ok ⟨column_index, column_values⟩ := by
  unfold open_column_u128
  rw [if_neg (by omega), if_neg (by omega)]

theorem open_column_bytes_split (data : List Nat) (h4 : 4 ≤ data.length)
    (hL : leToNat (data.drop (data.length - 4)) ≤
      (data.take (data.length - 4)).length) :
    open_column_bytes data =
      match dictionaryFromBytes ((data.take (data.length - 4)).take
          (leToNat (data.drop (data.length - 4)))) with
      | none => .error ⟨.invalidData, "failed to open dictionary"⟩
      | some dictionary =>
        match open_column_u64 ((data.take (data.length - 4)).drop
            (leToNat (data.drop (data.length - 4)))) with
        | .error e => .error e
        | .ok term_ord_column => .ok ⟨dictionary, term_ord_column⟩ := by
  unfold open_column_bytes
  rw [if_neg (by omega), if_neg (by omega)]

theorem frame_facts (A V : List Nat) (hA : A.length < 2 ^ 32) :
    4 ≤ ((A ++ V) ++ natToLE 4 A.length).length ∧
    ((A ++ V) ++ natToLE 4 A.length).drop
      (((A ++ V) ++ natToLE 4 A.length).length - 4) = natToLE 4 A.length ∧
    ((A ++ V) ++ natToLE 4 A.length).take
      (((A ++ V) ++ natToLE 4 A.length).length - 4) = A ++ V ∧
    leToNat (natToLE 4 A.length) = A.length ∧
    (A ++ V).take A.length = A ∧
    (A ++ V).drop A.length = V := by
  have hF : (natToLE 4 A.length).length = 4 := natToLE_length _ _
  have htotal : ((A ++ V) ++ natToLE 4 A.length).length =
      A.length + V.length + 4 := by
    simp only [List.length_append, hF]
  have hsub : ((A ++ V) ++ natToLE 4 A.length).length - 4 = (A ++ V).length := by
    rw [htotal]
    simp only [List.length_append]
    omega
  refine ⟨by omega, ?_, ?_, ?_, ?_, ?_⟩
  · rw [hsub]
    exact drop_append_len _ _ _ rfl
  · rw [hsub]
    exact take_append_len _ _ _ rfl
  · exact leToNat_natToLE 4 _ (by simpa using hA)
  · exact take_append_len _ _ _ rfl
  · exact drop_append_len _ _ _ rfl

/-! ## Claim theorems -/

/-- C1: for every finite sequence of values in the declared domain
(u64-mappable or u128-mappable) and every column index, opening the bytes
produced by serialize yields a Column whose per-document reads equal the
original values and whose index shape (single/optional/multivalued) is
preserved exactly. -/
theorem c1_open_serialize_round_trip (idx : SerializableColumnIndex)
    (vals vals128 : List Nat)
    (hdocs : indexNumDocs idx < 2 ^ 32)
    (hidxlen : (serialize_column_index idx).length < 2 ^ 32)
    (hvals : ∀ v ∈ vals, v < 2 ^ 64) (hn : vals.length < 2 ^ 32)
    (hvals128 : ∀ v ∈ vals128, v < 2 ^ 128) :
    (∃ col, open_column_u64 (serialize_column_mappable_to_u64 idx vals) = .ok col ∧
      indexCardinality col.idx = indexCardinality idx ∧
      ∀ d, d < indexNumDocs idx → readDoc col.idx col.values d = readDoc idx vals d) ∧
    (∃ col, open_column_u128 (serialize_column_mappable_to_u128 idx vals128) = .ok col ∧
      indexCardinality col.idx = indexCardinality idx ∧
      ∀ d, d < indexNumDocs idx → readDoc col.idx col.values d = readDoc idx vals128 d) := by
  constructor
  · refine ⟨⟨idx, vals⟩, ?_, rfl, fun d _ => rfl⟩
    obtain ⟨hf4, hdropF, htakeB, hleF, htakeA, hdropA⟩ :=
      frame_facts (serialize_column_index idx)
        (serialize_u64_based_column_values
          [CodecType.Bitpacked, CodecType.BlockwiseLinear] vals) hidxlen
    show open_column_u64 ((serialize_column_index idx ++
      serialize_u64_based_column_values
        [CodecType.Bitpacked, CodecType.BlockwiseLinear] vals) ++
      natToLE 4 (serialize_column_index idx).length) = _
    rw [open_column_u64_split _ hf4
      (by rw [hdropF, hleF, htakeB]; simp only [List.length_append]; omega)]
    rw [hdropF, hleF, htakeB, htakeA, hdropA]
    rw [open_serialize_column_index idx hdocs, load_serialize_u64 _ _ hvals hn]
  · refine ⟨⟨idx, vals128⟩, ?_, rfl, fun d _ => rfl⟩
    obtain ⟨hf4, hdropF, htakeB, hleF, htakeA, hdropA⟩ :=
      frame_facts (serialize_column_index idx)
        (serialize_column_values_u128 vals128) hidxlen
    show open_column_u128 ((serialize_column_index idx ++
      serialize_column_values_u128 vals128) ++
      natToLE 4 (serialize_column_index idx).length) = _
    rw [open_column_u128_split _ hf4
      (by rw [hdropF, hleF, htakeB]; simp only [List.length_append]; omega)]
    rw [hdropF, hleF, htakeB, htakeA, hdropA]
    rw [open_serialize_column_index idx hdocs, open_u128_serialize _ hvals128]

theorem c1_witness :
    (indexNumDocs (.optional [true, false]) < 2 ^ 32 ∧
      (serialize_column_index (.optional [true, false])).length < 2 ^ 32 ∧
      (∀ v ∈ [(5 : Nat)], v < 2 ^ 64) ∧ ([(5 : Nat)].length < 2 ^ 32) ∧
      (∀ v ∈ [(7 : Nat)], v < 2 ^ 128)) ∧
    ((∃ col, open_column_u64
        (serialize_column_mappable_to_u64 (.optional [true, false]) [5]) = .ok col ∧
      indexCardinality col.idx = indexCardinality (.optional [true, false]) ∧
      ∀ d, d < indexNumDocs (.optional [true, false]) →
        readDoc col.idx col.values d = readDoc (.optional [true, false]) [5] d) ∧
    (∃ col, open_column_u128
        (serialize_column_mappable_to_u128 (.optional [true, false]) [7]) = .ok col ∧
      indexCardinality col.idx = indexCardinality (.optional [true, false]) ∧
      ∀ d, d < indexNumDocs (.optional [true, false]) →
        readDoc col.idx col.values d = readDoc (.optional [true, false]) [7] d)) :=
  ⟨⟨by decide, by decide, by decide, by decide, by decide⟩,
    c1_open_serialize_round_trip (.optional [true, false]) [5] [7]
      (by decide) (by decide) (by decide) (by decide) (by decide)⟩

/-- C2: every call to serialize (u64 or u128 entry point) writes, in order,
the serialized column index, then the serialized values, then a fixed
4-byte little-endian unsigned integer equal to the exact byte length of the
serialized column index; the total output length is
len(index) + len(values) + 4 and nothing more is written. -/
theorem c2_serialize_layout (idx : SerializableColumnIndex)
    (vals vals128 : List Nat)
    (hidxlen : (serialize_column_index idx).length < 2 ^ 32) :
    (serialize_column_mappable_to_u64 idx vals =
      serialize_column_index idx ++
        serialize_u64_based_column_values
          [CodecType.Bitpacked, CodecType.BlockwiseLinear] vals ++
        natToLE 4 (serialize_column_index idx).length) ∧
    ((serialize_column_mappable_to_u64 idx vals).length =
      (serialize_column_index idx).length +
        (serialize_u64_based_column_values
          [CodecType.Bitpacked, CodecType.BlockwiseLinear] vals).length + 4) ∧
    (leToNat ((serialize_column_mappable_to_u64 idx vals).drop
        ((serialize_column_mappable_to_u64 idx vals).length - 4)) =
      (serialize_column_index idx).length) ∧
    (serialize_column_mappable_to_u128 idx vals128 =
      serialize_column_index idx ++
        serialize_column_values_u128 vals128 ++
        natToLE 4 (serialize_column_index idx).length) ∧
    ((serialize_column_mappable_to_u128 idx vals128).length =
      (serialize_column_index idx).length +
        (serialize_column_values_u128 vals128).length + 4) ∧
    (leToNat ((serialize_column_mappable_to_u128 idx vals128).drop
        ((serialize_column_mappable_to_u128 idx vals128).length - 4)) =
      (serialize_column_index idx).length) := by
  obtain ⟨_, hdropF64, _, hleF64, _, _⟩ :=
    frame_facts (serialize_column_index idx)
      (serialize_u64_based_column_values
        [CodecType.Bitpacked, CodecType.BlockwiseLinear] vals) hidxlen
  obtain ⟨_, hdropF128, _, hleF128, _, _⟩ :=
    frame_facts (serialize_column_index idx)
      (serialize_column_values_u128 vals128) hidxlen
  refine ⟨by simp [serialize_column_mappable_to_u64], ?_, ?_,
    by simp [serialize_column_mappable_to_u128], ?_, ?_⟩
  · show ((serialize_column_index idx ++ _) ++ _).length = _
    simp only [List.length_append, natToLE_length]
  · have hunfold : serialize_column_mappable_to_u64 idx vals =
        serialize_column_index idx ++
          serialize_u64_based_column_values
            [CodecType.Bitpacked, CodecType.BlockwiseLinear] vals ++
          natToLE 4 (serialize_column_index idx).length := rfl
    rw [hunfold, hdropF64, hleF64]
  · show ((serialize_column_index idx ++ _) ++ _).length = _
    simp only [List.length_append, natToLE_length]
  · have hunfold : serialize_column_mappable_to_u128 idx vals128 =
        serialize_column_index idx ++
          serialize_column_values_u128 vals128 ++
          natToLE 4 (serialize_column_index idx).length := rfl
    rw [hunfold, hdropF128, hleF128]

theorem c2_witness :
    ((serialize_column_index (.full 3)).length < 2 ^ 32) ∧
    (serialize_column_mappable_to_u64 (.full 3) [1, 2, 3] =
      serialize_column_index (.full 3) ++
        serialize_u64_based_column_values
          [CodecType.Bitpacked, CodecType.BlockwiseLinear] [1, 2, 3] ++
        natToLE 4 (serialize_column_index (.full 3)).length) ∧
    (leToNat ((serialize_column_mappable_to_u64 (.full 3) [1, 2, 3]).drop
        ((serialize_column_mappable_to_u64 (.full 3) [1, 2, 3]).length - 4)) =
      (serialize_column_index (.full 3)).length) :=
  ⟨by decide,
    (c2_serialize_layout (.full 3) [1, 2, 3] [9] (by decide)).1,
    (c2_serialize_layout (.full 3) [1, 2, 3] [9] (by decide)).2.2.1⟩

/-- C3: for every input buffer, open (u64 and u128 variants) reads the last
4 bytes as a little-endian index length L and splits the body (the prefix
before the footer) measured from the front: bytes [0, L) become the index
segment and bytes [L, end-of-body) become the values segment; each segment
is then opened independently and composed into a Column. -/
theorem c3_open_split_from_front (bytes : List Nat) (h4 : 4 ≤ bytes.length)
    (hL : leToNat (bytes.drop (bytes.length - 4)) ≤
      (bytes.take (bytes.length - 4)).length) :
    (open_column_u64 bytes =
      match open_column_index ((bytes.take (bytes.length - 4)).take
          (leToNat (bytes.drop (bytes.length - 4)))) with
      | none => .error ⟨.invalidData, "failed to open column index"⟩
      | some column_index =>
        match load_u64_based_column_values ((bytes.take (bytes.length - 4)).drop
            (leToNat (bytes.drop (bytes.length - 4)))) with
        | none => .error ⟨.invalidData, "failed to load u64 column values"⟩
        | some column_values => .ok ⟨column_index, column_values⟩) ∧
    (open_column_u128 bytes =
      match open_column_index ((bytes.take (bytes.length - 4)).take
          (leToNat (bytes.drop (bytes.length - 4)))) with
      | none => .error ⟨.invalidData, "failed to open column index"⟩
      | some column_index =>
        match open_u128_mapped ((bytes.take (bytes.length - 4)).drop
            (leToNat (bytes.drop (bytes.length - 4)))) with
        | none => .error ⟨.invalidData, "failed to load u128 column values"⟩
        | some column_values => .ok ⟨column_index, column_values⟩) :=
  ⟨open_column_u64_split bytes h4 hL, open_column_u128_split bytes h4 hL⟩

theorem c3_witness :
    (4 ≤ ([0, 0, 0, 0] : List Nat).length) ∧
    (leToNat (([0, 0, 0, 0] : List Nat).drop (([0, 0, 0, 0] : List Nat).length - 4)) ≤
      (([0, 0, 0, 0] : List Nat).take (([0, 0, 0, 0] : List Nat).length - 4)).length) ∧
    open_column_u64 [0, 0, 0, 0] =
      match open_column_index ((([0, 0, 0, 0] : List Nat).take
          (([0, 0, 0, 0] : List Nat).length - 4)).take
          (leToNat (([0, 0, 0, 0] : List Nat).drop
            (([0, 0, 0, 0] : List Nat).length - 4)))) with
      | none => .error ⟨.invalidData, "failed to open column index"⟩
      | some column_index =>
        match load_u64_based_column_values ((([0, 0, 0, 0] : List Nat).take
            (([0, 0, 0, 0] : List Nat).length - 4)).drop
            (leToNat (([0, 0, 0, 0] : List Nat).drop
              (([0, 0, 0, 0] : List Nat).length - 4)))) with
        | none => .error ⟨.invalidData, "failed to load u64 column values"⟩
        | some column_values => .ok ⟨column_index, column_values⟩ :=
  ⟨by decide, by decide,
    (c3_open_split_from_front [0, 0, 0, 0] (by decide) (by decide)).1⟩

/-- C4: for every input buffer shorter than 4 bytes, and for every buffer
whose recorded length field exceeds the size of the body before the footer,
open returns an I/O-class error and never panics (the open functions are
total and produce an `IoErr` on these inputs). -/
theorem c4_open_structural_errors :
    (∀ bytes : List Nat, bytes.length < 4 →
      open_column_u64 bytes =
        .error ⟨.unexpectedEof, "buffer shorter than the 4-byte footer"⟩ ∧
      open_column_u128 bytes =
        .error ⟨.unexpectedEof, "buffer shorter than the 4-byte footer"⟩ ∧
      open_column_bytes bytes =
        .error ⟨.unexpectedEof, "buffer shorter than the 4-byte footer"⟩) ∧
    (∀ bytes : List Nat, 4 ≤ bytes.length →
      (bytes.take (bytes.length - 4)).length <
        leToNat (bytes.drop (bytes.length - 4)) →
      open_column_u64 bytes =
        .error ⟨.invalidData, "recorded column index length exceeds body"⟩ ∧
      open_column_u128 bytes =
        .error ⟨.invalidData, "recorded column index length exceeds body"⟩ ∧
      open_column_bytes bytes =
        .error ⟨.invalidData, "recorded dictionary length exceeds body"⟩) := by
  constructor
  · intro bytes hshort
    refine ⟨?_, ?_, ?_⟩
    · unfold open_column_u64
      rw [if_pos hshort]
    · unfold open_column_u128
      rw [if_pos hshort]
    · unfold open_column_bytes
      rw [if_pos hshort]
  · intro bytes h4 hover
    refine ⟨?_, ?_, ?_⟩
    · unfold open_column_u64
      rw [if_neg (by omega), if_pos hover]
    · unfold open_column_u128
      rw [if_neg (by omega), if_pos hover]
    · unfold open_column_bytes
      rw [if_neg (by omega), if_pos hover]

theorem c4_witness :
    (([9, 9] : List Nat).length < 4 ∧
      open_column_u64 [9, 9] =
        .error ⟨.unexpectedEof, "buffer shorter than the 4-byte footer"⟩) ∧
    (4 ≤ ([5, 0, 0, 0] : List Nat).length ∧
      (([5, 0, 0, 0] : List Nat).take (([5, 0, 0, 0] : List Nat).length - 4)).length <
        leToNat (([5, 0, 0, 0] : List Nat).drop (([5, 0, 0, 0] : List Nat).length - 4)) ∧
      open_column_u64 [5, 0, 0, 0] =
        .error ⟨.invalidData, "recorded column index length exceeds body"⟩) :=
  ⟨⟨by decide, (c4_open_structural_errors.1 [9, 9] (by decide)).1⟩,
    ⟨by decide, by decide,
      (c4_open_structural_errors.2 [5, 0, 0, 0] (by decide) (by decide)).1⟩⟩

/-- C5: the u64 serialization entry point always offers exactly the
candidate codec set [Bitpacked, BlockwiseLinear] (in that declaration
order) to the numeric codec layer (whose selection picks a member of that
set), whereas the u128 entry point performs no candidate selection and
uses the single direct u128 encoder. -/
theorem c5_candidate_codecs (idx : SerializableColumnIndex)
    (vals vals128 : List Nat) :
    (serialize_column_mappable_to_u64 idx vals =
      serialize_column_index idx ++
        (codecTag (selectCodec [CodecType.Bitpacked, CodecType.BlockwiseLinear] vals) ::
          codecEncode (selectCodec [CodecType.Bitpacked, CodecType.BlockwiseLinear] vals)
            vals) ++
        natToLE 4 (serialize_column_index idx).length) ∧
    (selectCodec [CodecType.Bitpacked, CodecType.BlockwiseLinear] vals ∈
      [CodecType.Bitpacked, CodecType.BlockwiseLinear]) ∧
    (serialize_column_mappable_to_u128 idx vals128 =
      serialize_column_index idx ++
        serialize_column_values_u128 vals128 ++
        natToLE 4 (serialize_column_index idx).length) :=
  ⟨rfl, selectCodec_mem _ _ (by simp), rfl⟩

/-- C6: for every buffer framed as
[dictionary_bytes][nested_u64_column_bytes][4-byte LE dictionary length],
opening a bytes column reads the trailing 4 bytes as the dictionary
length, splits the body from the front at that length, opens the
Dictionary from the first segment and the nested u64 term-ordinal Column
from the second, and returns their composition (shared reference-counted
ownership of the dictionary is a memory-management aspect not modelled). -/
theorem c6_open_column_bytes_frame (D C : List Nat) (hD : D.length < 2 ^ 32) :
    open_column_bytes ((D ++ C) ++ natToLE 4 D.length) =
      match dictionaryFromBytes D with
      | none => .error ⟨.invalidData, "failed to open dictionary"⟩
      | some dictionary =>
        match open_column_u64 C with
        | .error e => .error e
        | .ok term_ord_column => .ok ⟨dictionary, term_ord_column⟩ := by
  obtain ⟨hf4, hdropF, htakeB, hleF, htakeA, hdropA⟩ := frame_facts D C hD
  rw [open_column_bytes_split _ hf4
    (by rw [hdropF, hleF, htakeB]; simp only [List.length_append]; omega)]
  rw [hdropF, hleF, htakeB, htakeA, hdropA]

theorem c6_witness :
    (([1, 0, 0, 0, 107] : List Nat).length < 2 ^ 32) ∧
    open_column_bytes ((([1, 0, 0, 0, 107] ++ [9, 9, 9, 9]) : List Nat) ++
        natToLE 4 ([1, 0, 0, 0, 107] : List Nat).length) =
      match dictionaryFromBytes [1, 0, 0, 0, 107] with
      | none => .error ⟨.invalidData, "failed to open dictionary"⟩
      | some dictionary =>
        match open_column_u64 [9, 9, 9, 9] with
        | .error e => .error e
        | .ok term_ord_column => .ok ⟨dictionary, term_ord_column⟩ :=
  ⟨by decide, c6_open_column_bytes_frame [1, 0, 0, 0, 107] [9, 9, 9, 9] (by decide)⟩

/-! ## JSON model

`Value::JsonObject` and the pre-tokenized-string extension serialize
through the serde_json crate (external, not under src/).  The JSON tree,
its printer and its streaming reader are modelled here; numbers are
modelled as integers (the claims do not depend on float payloads) and
strings as UTF-8 byte lists. -/

/-- The JSON value tree (serde_json::Value, modelled). -/
inductive Json where
  | null
  | jbool (b : Bool)
  | num (n : Int)
  | jstr (s : List Nat)
  | arr (items : List Json)
  | obj (members : List (List Nat × Json))

mutual

/-- Boolean equality on the JSON tree. -/
def jsonBeq : Json → Json → Bool
  | .null, .null => true
  | .jbool a, .jbool b => a == b
  | .num a, .num b => a == b
  | .jstr a, .jstr b => a == b
  | .arr a, .arr b => jsonListBeq a b
  | .obj a, .obj b => jsonMembersBeq a b
  | _, _ => false

def jsonListBeq : List Json → List Json → Bool
  | [], [] => true
  | a :: l1, b :: l2 => jsonBeq a b && jsonListBeq l1 l2
  | _, _ => false

def jsonMembersBeq : List (List Nat × Json) → List (List Nat × Json) → Bool
  | [], [] => true
  | (k1, v1) :: t1, (k2, v2) :: t2 =>
    k1 == k2 && jsonBeq v1 v2 && jsonMembersBeq t1 t2
  | _, _ => false

end

mutual

theorem jsonBeq_eq : ∀ a b : Json, jsonBeq a b = true ↔ a = b
  | .null, b => by cases b <;> simp [jsonBeq]
  | .jbool x, b => by cases b <;> simp [jsonBeq]
  | .num x, b => by cases b <;> simp [jsonBeq]
  | .jstr x, b => by cases b <;> simp [jsonBeq]
  | .arr l, b => by
    cases b <;> simp [jsonBeq]
    exact jsonListBeq_eq l _
  | .obj l, b => by
    cases b <;> simp [jsonBeq]
    exact jsonMembersBeq_eq l _

theorem jsonListBeq_eq : ∀ a b : List Json, jsonListBeq a b = true ↔ a = b
  | [], b => by cases b <;> simp [jsonListBeq]
  | a :: l1, b => by
    cases b with
    | nil => simp [jsonListBeq]
    | cons c l2 =>
      simp only [jsonListBeq, Bool.and_eq_true, List.cons.injEq]
      rw [jsonBeq_eq a c, jsonListBeq_eq l1 l2]

theorem jsonMembersBeq_eq :
    ∀ a b : List (List Nat × Json), jsonMembersBeq a b = true ↔ a = b
  | [], b => by cases b <;> simp [jsonMembersBeq]
  | (k1, v1) :: t1, b => by
    cases b with
    | nil => simp [jsonMembersBeq]
    | cons c t2 =>
      obtain ⟨k2, v2⟩ := c
      simp only [jsonMembersBeq, Bool.and_eq_true, List.cons.injEq, Prod.mk.injEq,
        beq_iff_eq]
      rw [jsonBeq_eq v1 v2, jsonMembersBeq_eq t1 t2]

end

instance : DecidableEq Json := fun a b => decidable_of_iff _ (jsonBeq_eq a b)

/-- ASCII decimal digits of a natural number, most significant first. -/
def digitsOf (m : Nat) : List Nat :=
  if m = 0 then [48] else ((Nat.digits 10 m).map (fun d => d + 48)).reverse

/-- ASCII rendering of an integer. -/
def intDigits (n : Int) : List Nat :=
  if n < 0 then 45 :: digitsOf n.natAbs else digitsOf n.toNat

/-- JSON string escaping: the quote and the backslash (the further
escaping serde_json performs for control bytes is not modelled; no claim
depends on it). -/
def escapeByte (b : Nat) : List Nat :=
  if b = 34 then [92, 34]
  else if b = 92 then [92, 92]
  else [b]

def escapeString (s : List Nat) : List Nat := (s.map escapeByte).flatten

mutual

/-- The JSON printer (serde_json::to_string, modelled; no whitespace). -/
def printJson : Json → List Nat
  | .null => [110, 117, 108, 108]
  | .jbool true => [116, 114, 117, 101]
  | .jbool false => [102, 97, 108, 115, 101]
  | .num n => intDigits n
  | .jstr s => 34 :: escapeString s ++ [34]
  | .arr [] => [91, 93]
  | .arr (h :: t) => 91 :: printJson h ++ printTail t
  | .obj [] => [123, 125]
  | .obj (m :: t) => 123 :: printMember m ++ printMembersTail t

/-- Prints `, v` separated elements and the closing bracket. -/
def printTail : List Json → List Nat
  | [] => [93]
  | h :: t => 44 :: printJson h ++ printTail t

/-- Prints one `"key":value` member. -/
def printMember : (List Nat × Json) → List Nat
  | (k, v) => 34 :: escapeString k ++ [34] ++ (58 :: printJson v)

/-- Prints `, "k":v` separated members and the closing brace. -/
def printMembersTail : List (List Nat × Json) → List Nat
  | [] => [125]
  | m :: t => 44 :: printMember m ++ printMembersTail t

end

mutual

/-- Parser fuel weight of a JSON value. -/
def jsonWeight : Json → Nat
  | .null => 1
  | .jbool _ => 1
  | .num _ => 1
  | .jstr _ => 1
  | .arr l => 2 + weightElems l
  | .obj l => 2 + weightMembers l

def weightElems : List Json → Nat
  | [] => 1
  | h :: t => 1 + jsonWeight h + weightElems t

def weightMembers : List (List Nat × Json) → Nat
  | [] => 1
  | m :: t => 1 + jsonWeight m.2 + weightMembers t

end

/-- Reads a JSON string body after the opening quote, returning the
unescaped content and the remainder after the closing quote. -/
def parseStringBody : List Nat → Option (List Nat × List Nat)
  | [] => none
  | c :: rest =>
    if c = 34 then some ([], rest)
    else if c = 92 then
      match rest with
      | [] => none
      | e :: rest2 =>
        if e = 34 ∨ e = 92 then
          match parseStringBody rest2 with
          | some (s, r) => some (e :: s, r)
          | none => none
        else none
    else
      match parseStringBody rest with
      | some (s, r) => some (c :: s, r)
      | none => none

/-- Is an ASCII decimal digit. -/
def isDigitByte (c : Nat) : Bool := decide (48 ≤ c ∧ c ≤ 57)

/-- Reads a run of decimal digits as a natural number. -/
def parseNatDigits (b : List Nat) : Option (Nat × List Nat) :=
  let ds := b.takeWhile isDigitByte
  if ds.isEmpty then none
  else some (ds.foldl (fun a c => a * 10 + (c - 48)) 0, b.dropWhile isDigitByte)

mutual

/-- The fuel-indexed streaming JSON reader (serde_json streaming
Deserializer, modelled): reads one value and returns the remainder. -/
def parseJsonVal : Nat → List Nat → Option (Json × List Nat)
  | 0, _ => none
  | fuel + 1, input =>
    match input with
    | [] => none
    | c :: rest =>
      if c = 110 then
        if rest.take 3 = [117, 108, 108] then some (.null, rest.drop 3) else none
      else if c = 116 then
        if rest.take 3 = [114, 117, 101] then some (.jbool true, rest.drop 3) else none
      else if c = 102 then
        if rest.take 4 = [97, 108, 115, 101] then some (.jbool false, rest.drop 4)
        else none
      else if c = 34 then
        match parseStringBody rest with
        | some (s, r) => some (.jstr s, r)
        | none => none
      else if c = 45 then
        match parseNatDigits rest with
        | some (m, r) => some (.num (-(m : Int)), r)
        | none => none
      else if isDigitByte c then
        match parseNatDigits (c :: rest) with
        | some (m, r) => some (.num (m : Int), r)
        | none => none
      else if c = 91 then
        if rest.head? = some 93 then some (.arr [], rest.tail)
        else
          match parseJsonVal fuel rest with
          | some (j, r) =>
            match parseArrTail fuel r with
            | some (t, r2) => some (.arr (j :: t), r2)
            | none => none
          | none => none
      else if c = 123 then
        if rest.head? = some 125 then some (.obj [], rest.tail)
        else if rest.head? = some 34 then
          match parseStringBody rest.tail with
          | some (k, r1) =>
            if r1.head? = some 58 then
              match parseJsonVal fuel r1.tail with
              | some (v, r2) =>
                match parseObjTail fuel r2 with
                | some (t, r3) => some (.obj ((k, v) :: t), r3)
                | none => none
              | none => none
            else none
          | none => none
        else none
      else none

/-- Reads the rest of a JSON array after one element. -/
def parseArrTail : Nat → List Nat → Option (List Json × List Nat)
  | 0, _ => none
  | fuel + 1, input =>
    if input.head? = some 93 then some ([], input.tail)
    else if input.head? = some 44 then
      match parseJsonVal fuel input.tail with
      | some (j, r) =>
        match parseArrTail fuel r with
        | some (t, r2) => some (j :: t, r2)
        | none => none
      | none => none
    else none

/-- Reads the rest of a JSON object after one member. -/
def parseObjTail : Nat → List Nat → Option (List (List Nat × Json) × List Nat)
  | 0, _ => none
  | fuel + 1, input =>
    if input.head? = some 125 then some ([], input.tail)
    else if input.head? = some 44 then
      if input.tail.head? = some 34 then
        match parseStringBody input.tail.tail with
        | some (k, r1) =>
          if r1.head? = some 58 then
            match parseJsonVal fuel r1.tail with
            | some (v, r2) =>
              match parseObjTail fuel r2 with
              | some (t, r3) => some ((k, v) :: t, r3)
              | none => none
            | none => none
          else none
        | none => none
      else none
    else none

end

theorem parseStringBody_escape (s rest : List Nat) :
    parseStringBody (escapeString s ++ (34 :: rest)) = some (s, rest) := by
  induction s with
  | nil =>
    rw [show escapeString [] = [] from rfl, List.nil_append,
      parseStringBody.eq_def]
    simp
  | cons b t ih =>
    have hes : escapeString (b :: t) = escapeByte b ++ escapeString t := by
      simp [escapeString]
    rw [hes, List.append_assoc]
    by_cases h34 : b = 34
    · subst h34
      rw [show escapeByte 34 = [92, 34] from rfl]
      rw [show ([92, 34] : List Nat) ++ (escapeString t ++ (34 :: rest)) =
        92 :: (34 :: (escapeString t ++ (34 :: rest))) from rfl]
      simp [parseStringBody, ih]
    · by_cases h92 : b = 92
      · subst h92
        rw [show escapeByte 92 = [92, 92] from by simp [escapeByte]]
        rw [show ([92, 92] : List Nat) ++ (escapeString t ++ (34 :: rest)) =
          92 :: (92 :: (escapeString t ++ (34 :: rest))) from rfl]
        simp [parseStringBody, ih]
      · rw [show escapeByte b = [b] from by simp [escapeByte, h34, h92]]
        rw [show ([b] : List Nat) ++ (escapeString t ++ (34 :: rest)) =
          b :: (escapeString t ++ (34 :: rest)) from rfl,
          parseStringBody.eq_def]
        simp [h34, h92, ih]

theorem digitsOf_ne_nil (m : Nat) : digitsOf m ≠ [] := by
  unfold digitsOf
  by_cases hm : m = 0
  · simp [hm]
  · rw [if_neg hm]
    simp only [ne_eq, List.reverse_eq_nil_iff, List.map_eq_nil_iff]
    exact Nat.digits_ne_nil_iff_ne_zero.mpr hm

theorem digitsOf_all_digits (m : Nat) :
    ∀ c ∈ digitsOf m, 48 ≤ c ∧ c ≤ 57 := by
  unfold digitsOf
  by_cases hm : m = 0
  · simp [hm]
  · rw [if_neg hm]
    intro c hc
    rw [List.mem_reverse] at hc
    obtain ⟨d, hd, hdeq⟩ := List.mem_map.mp hc
    have : d < 10 := Nat.digits_lt_base (by norm_num) hd
    omega

theorem takeWhile_all_append (p : Nat → Bool) (l1 l2 : List Nat)
    (h1 : ∀ x ∈ l1, p x = true)
    (h2 : ∀ c, l2.head? = some c → p c = false) :
    (l1 ++ l2).takeWhile p = l1 ∧ (l1 ++ l2).dropWhile p = l2 := by
  induction l1 with
  | nil =>
    simp only [List.nil_append]
    cases l2 with
    | nil => simp
    | cons c r =>
      have := h2 c rfl
      constructor
      · rw [List.takeWhile_cons, this]
        simp
      · rw [List.dropWhile_cons, this]
        simp
  | cons x l1 ih =>
    have hx : p x = true := h1 x (List.mem_cons_self _ _)
    obtain ⟨iht, ihd⟩ := ih fun y hy => h1 y (List.mem_cons_of_mem _ hy)
    constructor
    · rw [List.cons_append, List.takeWhile_cons, hx]
      simp [iht]
    · rw [List.cons_append, List.dropWhile_cons, hx]
      simpa using ihd

theorem foldl_digits_aux (l : List Nat) :
    ((l.map (fun d => d + 48)).reverse).foldl (fun a c => a * 10 + (c - 48)) 0 =
      Nat.ofDigits 10 l := by
  rw [List.foldl_reverse]
  induction l with
  | nil => simp [Nat.ofDigits]
  | cons d t ih =>
    simp only [List.map_cons, List.foldr_cons, ih, Nat.ofDigits_cons]
    omega

theorem natFromFold (m : Nat) :
    (digitsOf m).foldl (fun a c => a * 10 + (c - 48)) 0 = m := by
  unfold digitsOf
  by_cases hm : m = 0
  · simp [hm]
  · rw [if_neg hm, foldl_digits_aux]
    exact_mod_cast Nat.ofDigits_digits 10 m

theorem parseNatDigits_digits (m : Nat) (rest : List Nat)
    (hrest : ∀ c, rest.head? = some c → isDigitByte c = false) :
    parseNatDigits (digitsOf m ++ rest) = some (m, rest) := by
  have hall : ∀ x ∈ digitsOf m, isDigitByte x = true := by
    intro x hx
    have := digitsOf_all_digits m x hx
    simp only [isDigitByte, decide_eq_true_eq]
    omega
  obtain ⟨ht, hd⟩ := takeWhile_all_append isDigitByte (digitsOf m) rest hall hrest
  have hne : (digitsOf m).isEmpty = false := by
    cases hdm : digitsOf m with
    | nil => exact absurd hdm (digitsOf_ne_nil m)
    | cons a t => rfl
  unfold parseNatDigits
  simp only [ht, hd, hne, Bool.false_eq_true, if_false]
  rw [natFromFold]

theorem digitsOf_head (m : Nat) :
    ∃ c cs, digitsOf m = c :: cs ∧ 48 ≤ c ∧ c ≤ 57 := by
  cases hdm : digitsOf m with
  | nil => exact absurd hdm (digitsOf_ne_nil m)
  | cons c cs =>
    have hm := digitsOf_all_digits m c (by rw [hdm]; exact List.mem_cons_self _ _)
    exact ⟨c, cs, rfl, hm.1, hm.2⟩

theorem jsonWeight_pos (j : Json) : 1 ≤ jsonWeight j := by
  cases j <;> simp [jsonWeight] <;> omega

theorem weightElems_pos (l : List Json) : 1 ≤ weightElems l := by
  cases l with
  | nil => simp [weightElems]
  | cons h t =>
    unfold weightElems
    omega

theorem weightMembers_pos (l : List (List Nat × Json)) : 1 ≤ weightMembers l := by
  cases l with
  | nil => simp [weightMembers]
  | cons h t =>
    unfold weightMembers
    omega

/-- The byte after a printed JSON number must not be a digit for the
streaming reader to stop at the right place. -/
def delimOk (rest : List Nat) : Prop :=
  ∀ c, rest.head? = some c → isDigitByte c = false

theorem delimOk_nil : delimOk [] := by
  intro c h
  simp at h

theorem delimOk_cons {c : Nat} (h : isDigitByte c = false) (r : List Nat) :
    delimOk (c :: r) := by
  intro c2 h2
  simp only [List.head?_cons, Option.some.injEq] at h2
  rw [← h2]
  exact h

theorem printTail_nil : printTail [] = [93] := by rw [printTail]

theorem printTail_cons (h : Json) (t : List Json) :
    printTail (h :: t) = 44 :: printJson h ++ printTail t := by rw [printTail]

theorem printMembersTail_nil : printMembersTail [] = [125] := by
  rw [printMembersTail]

theorem printMembersTail_cons (m : List Nat × Json)
    (t : List (List Nat × Json)) :
    printMembersTail (m :: t) = 44 :: printMember m ++ printMembersTail t := by
  rw [printMembersTail]

theorem delimOk_printTail (l : List Json) (r : List Nat) :
    delimOk (printTail l ++ r) := by
  cases l with
  | nil =>
    rw [printTail_nil]
    exact delimOk_cons (by decide) r
  | cons h t =>
    rw [printTail_cons]
    exact delimOk_cons (by decide) _

theorem delimOk_printMembersTail (l : List (List Nat × Json)) (r : List Nat) :
    delimOk (printMembersTail l ++ r) := by
  cases l with
  | nil =>
    rw [printMembersTail_nil]
    exact delimOk_cons (by decide) r
  | cons h t =>
    rw [printMembersTail_cons]
    exact delimOk_cons (by decide) _

theorem printJson_head_facts (j : Json) :
    ∃ c cs, printJson j = c :: cs ∧ c ≠ 93 := by
  cases j with
  | null => exact ⟨110, _, by rw [printJson], by omega⟩
  | jbool b =>
    cases b with
    | true => exact ⟨116, _, by rw [printJson], by omega⟩
    | false => exact ⟨102, _, by rw [printJson], by omega⟩
  | num n =>
    by_cases hn : n < 0
    · refine ⟨45, digitsOf n.natAbs, ?_, by omega⟩
      rw [printJson]
      simp [intDigits, hn]
    · obtain ⟨c, cs, heq, hc1, hc2⟩ := digitsOf_head n.toNat
      refine ⟨c, cs, ?_, by omega⟩
      rw [printJson]
      simp [intDigits, hn, heq]
  | jstr s =>
    exact ⟨34, escapeString s ++ [34], by rw [printJson]; rfl, by omega⟩
  | arr l =>
    cases l with
    | nil => exact ⟨91, _, by rw [printJson], by omega⟩
    | cons h t =>
      exact ⟨91, printJson h ++ printTail t, by rw [printJson]; rfl, by omega⟩
  | obj l =>
    cases l with
    | nil => exact ⟨123, _, by rw [printJson], by omega⟩
    | cons h t =>
      exact ⟨123, printMember h ++ printMembersTail t,
        by rw [printJson]; rfl, by omega⟩

theorem parse_print_all : ∀ fuel : Nat,
    (∀ j rest, jsonWeight j ≤ fuel → delimOk rest →
      parseJsonVal fuel (printJson j ++ rest) = some (j, rest)) ∧
    (∀ l rest, weightElems l ≤ fuel →
      parseArrTail fuel (printTail l ++ rest) = some (l, rest)) ∧
    (∀ l rest, weightMembers l ≤ fuel →
      parseObjTail fuel (printMembersTail l ++ rest) = some (l, rest)) := by
  intro fuel
  induction fuel with
  | zero =>
    refine ⟨?_, ?_, ?_⟩
    · intro j rest hw _
      exact absurd hw (by have := jsonWeight_pos j; omega)
    · intro l rest hw
      exact absurd hw (by have := weightElems_pos l; omega)
    · intro l rest hw
      exact absurd hw (by have := weightMembers_pos l; omega)
  | succ fuel ih =>
    obtain ⟨ihV, ihA, ihO⟩ := ih
    refine ⟨?_, ?_, ?_⟩
    · intro j rest hw hdelim
      cases j with
      | null =>
        rw [printJson]
        simp [parseJsonVal]
      | jbool b =>
        cases b with
        | true =>
          rw [printJson]
          simp [parseJsonVal]
        | false =>
          rw [printJson]
          simp [parseJsonVal]
      | num n =>
        rw [printJson]
        unfold intDigits
        by_cases hn : n < 0
        · rw [if_pos hn]
          have hpd := parseNatDigits_digits n.natAbs rest hdelim
          simp [parseJsonVal, hpd, abs_of_neg hn]
        · rw [if_neg hn]
          obtain ⟨c, cs, heq, hc1, hc2⟩ := digitsOf_head n.toNat
          have hpd := parseNatDigits_digits n.toNat rest hdelim
          rw [heq] at hpd ⊢
          have hd : isDigitByte c = true := by
            simp only [isDigitByte, decide_eq_true_eq]
            omega
          have htn : ((n.toNat : Int)) = n := Int.toNat_of_nonneg (by omega)
          simp only [List.cons_append] at hpd
          simp [parseJsonVal, show c ≠ 110 from by omega,
            show c ≠ 116 from by omega, show c ≠ 102 from by omega,
            show c ≠ 34 from by omega, show c ≠ 45 from by omega,
            hd, hpd, htn]
      | jstr s =>
        rw [printJson]
        have hps := parseStringBody_escape s rest
        simp [parseJsonVal, List.cons_append, List.append_assoc, hps]
      | arr l =>
        cases l with
        | nil =>
          rw [printJson]
          simp [parseJsonVal, isDigitByte]
        | cons h t =>
          rw [printJson]
          obtain ⟨c0, cs0, hph, hc0⟩ := printJson_head_facts h
          simp only [jsonWeight, weightElems] at hw
          have hwh : jsonWeight h ≤ fuel := by
            have := weightElems_pos t
            omega
          have hwt : weightElems t ≤ fuel := by
            have := jsonWeight_pos h
            omega
          have hih := ihV h (printTail t ++ rest) hwh (delimOk_printTail t rest)
          have hia := ihA t rest hwt
          have hhd1 : (printJson h).head? ≠ some 93 := by
            rw [hph]
            simp only [List.head?_cons, ne_eq, Option.some.injEq]
            omega
          have hhd2 : printJson h ≠ [] := by
            rw [hph]
            simp
          simp [parseJsonVal, isDigitByte, List.cons_append,
            List.append_assoc, hhd1, hhd2, hih, hia]
      | obj l =>
        cases l with
        | nil =>
          rw [printJson]
          simp [parseJsonVal, isDigitByte]
        | cons m t =>
          obtain ⟨k, v⟩ := m
          rw [printJson, printMember]
          simp only [jsonWeight, weightMembers] at hw
          have hwv : jsonWeight v ≤ fuel := by
            have := weightMembers_pos t
            omega
          have hwt : weightMembers t ≤ fuel := by
            have := jsonWeight_pos v
            omega
          have hih := ihV v (printMembersTail t ++ rest) hwv
            (delimOk_printMembersTail t rest)
          have hio := ihO t rest hwt
          have hps := parseStringBody_escape k
            (58 :: (printJson v ++ (printMembersTail t ++ rest)))
          simp [parseJsonVal, isDigitByte, List.cons_append,
            List.append_assoc, hps, hih, hio]
    · intro l rest hw
      cases l with
      | nil =>
        rw [printTail_nil]
        simp [parseArrTail]
      | cons h t =>
        rw [printTail_cons]
        simp only [weightElems] at hw
        have hwh : jsonWeight h ≤ fuel := by
          have := weightElems_pos t
          omega
        have hwt : weightElems t ≤ fuel := by
          have := jsonWeight_pos h
          omega
        have hih := ihV h (printTail t ++ rest) hwh (delimOk_printTail t rest)
        have hia := ihA t rest hwt
        simp [parseArrTail, List.cons_append, List.append_assoc, hih, hia]
    · intro l rest hw
      cases l with
      | nil =>
        rw [printMembersTail_nil]
        simp [parseObjTail]
      | cons m t =>
        obtain ⟨k, v⟩ := m
        rw [printMembersTail_cons, printMember]
        simp only [weightMembers] at hw
        have hwv : jsonWeight v ≤ fuel := by
          have := weightMembers_pos t
          omega
        have hwt : weightMembers t ≤ fuel := by
          have := jsonWeight_pos v
          omega
        have hih := ihV v (printMembersTail t ++ rest) hwv
          (delimOk_printMembersTail t rest)
        have hio := ihO t rest hwt
        have hps := parseStringBody_escape k
          (58 :: (printJson v ++ (printMembersTail t ++ rest)))
        simp [parseObjTail, List.cons_append, List.append_assoc, hps,
          hih, hio]

theorem weight_le_print : ∀ n : Nat,
    (∀ j : Json, jsonWeight j ≤ n → jsonWeight j ≤ 2 * (printJson j).length) ∧
    (∀ l : List Json, weightElems l ≤ n →
      weightElems l + 1 ≤ 2 * (printTail l).length) ∧
    (∀ l : List (List Nat × Json), weightMembers l ≤ n →
      weightMembers l + 1 ≤ 2 * (printMembersTail l).length) := by
  intro n
  induction n with
  | zero =>
    refine ⟨?_, ?_, ?_⟩
    · intro j hw
      exact absurd hw (by have := jsonWeight_pos j; omega)
    · intro l hw
      exact absurd hw (by have := weightElems_pos l; omega)
    · intro l hw
      exact absurd hw (by have := weightMembers_pos l; omega)
  | succ n ih =>
    obtain ⟨ihV, ihA, ihO⟩ := ih
    refine ⟨?_, ?_, ?_⟩
    · intro j hw
      cases j with
      | null => simp [printJson, jsonWeight]
      | jbool b => cases b <;> simp [printJson, jsonWeight]
      | num m =>
        have h1 : 1 ≤ (intDigits m).length := by
          unfold intDigits
          split
          · simp
          · have hd := digitsOf_ne_nil m.toNat
            cases hdd : digitsOf m.toNat with
            | nil => exact absurd hdd hd
            | cons a l => simp [hdd]
        simp only [printJson, jsonWeight]
        omega
      | jstr s =>
        simp only [printJson, jsonWeight, List.length_cons, List.length_append]
        omega
      | arr l =>
        cases l with
        | nil => simp [printJson, jsonWeight, weightElems]
        | cons h t =>
          simp only [jsonWeight, weightElems] at hw
          have hV := ihV h (by have := weightElems_pos t; omega)
          have hA := ihA t (by have := jsonWeight_pos h; omega)
          simp only [printJson, jsonWeight, weightElems, List.length_cons,
            List.length_append]
          omega
      | obj l =>
        cases l with
        | nil => simp [printJson, jsonWeight, weightMembers]
        | cons m t =>
          obtain ⟨k, v⟩ := m
          simp only [jsonWeight, weightMembers] at hw
          have hV := ihV v (by have := weightMembers_pos t; omega)
          have hO := ihO t (by have := jsonWeight_pos v; omega)
          simp only [printJson, printMember, jsonWeight, weightMembers,
            List.length_cons, List.length_append] at hV hO ⊢
          omega
    · intro l hw
      cases l with
      | nil => simp [printTail, weightElems]
      | cons h t =>
        simp only [weightElems] at hw
        have hV := ihV h (by have := weightElems_pos t; omega)
        have hA := ihA t (by have := jsonWeight_pos h; omega)
        simp only [printTail, weightElems, List.length_cons, List.length_append]
        omega
    · intro l hw
      cases l with
      | nil => simp [printMembersTail, weightMembers]
      | cons m t =>
        obtain ⟨k, v⟩ := m
        simp only [weightMembers] at hw
        have hV := ihV v (by have := weightMembers_pos t; omega)
        have hO := ihO t (by have := jsonWeight_pos v; omega)
        simp only [printMembersTail, printMember, weightMembers,
          List.length_cons, List.length_append] at hV hO ⊢
        omega

/-- `serde_json::from_str`, modelled: parse the whole byte text with
length-bounded fuel and require that every input byte is consumed. -/
def jsonParseBytes (s : List Nat) : Option Json :=
  match parseJsonVal (2 * s.length + 1) s with
  | some (j, []) => some j
  | _ => none

theorem jsonParseBytes_print (j : Json) : jsonParseBytes (printJson j) = some j := by
  have hw := (weight_le_print (jsonWeight j)).1 j le_rfl
  have h := (parse_print_all (2 * (printJson j).length + 1)).1 j [] (by omega)
    delimOk_nil
  rw [List.append_nil] at h
  simp [jsonParseBytes, h]

/-- `Token` of tokenizer/tokenized_string.rs (not under src/, referenced by
value.rs); its serde derive writes the fields in declaration order. Text is a
UTF-8 byte list. -/
structure Token where
  offset_from : Nat
  offset_to : Nat
  position : Nat
  text : List Nat
  position_length : Nat
deriving DecidableEq

/-- `PreTokenizedString` of tokenizer/tokenized_string.rs (not under src/,
referenced by value.rs): the original text and its tokens. -/
structure PreTokenizedString where
  text : List Nat
  tokens : List Token
deriving DecidableEq

def keyOffsetFrom : List Nat := [111, 102, 102, 115, 101, 116, 95, 102, 114, 111, 109]

def keyOffsetTo : List Nat := [111, 102, 102, 115, 101, 116, 95, 116, 111]

def keyPosition : List Nat := [112, 111, 115, 105, 116, 105, 111, 110]

def keyText : List Nat := [116, 101, 120, 116]

def keyPositionLength : List Nat :=
  [112, 111, 115, 105, 116, 105, 111, 110, 95, 108, 101, 110, 103, 116, 104]

def keyTokens : List Nat := [116, 111, 107, 101, 110, 115]

/-- The serde JSON rendering of a `Token` (derived Serialize: a map of the
five fields in declaration order). -/
def tokenToJson (t : Token) : Json :=
  .obj [(keyOffsetFrom, .num t.offset_from), (keyOffsetTo, .num t.offset_to),
    (keyPosition, .num t.position), (keyText, .jstr t.text),
    (keyPositionLength, .num t.position_length)]

/-- The serde JSON reading of a `Token` (derived Deserialize), restricted to
the maps the derived Serialize emits. -/
def jsonToToken : Json → Option Token
  | .obj [(k1, .num a), (k2, .num b), (k3, .num c), (k4, .jstr s), (k5, .num d)] =>
    if k1 = keyOffsetFrom ∧ k2 = keyOffsetTo ∧ k3 = keyPosition ∧ k4 = keyText ∧
        k5 = keyPositionLength ∧ 0 ≤ a ∧ 0 ≤ b ∧ 0 ≤ c ∧ 0 ≤ d then
      some ⟨a.toNat, b.toNat, c.toNat, s, d.toNat⟩
    else none
  | _ => none

/-- The serde JSON rendering of a `PreTokenizedString` (derived Serialize). -/
def preTokToJson (p : PreTokenizedString) : Json :=
  .obj [(keyText, .jstr p.text), (keyTokens, .arr (p.tokens.map tokenToJson))]

def tokensFromJson : List Json → Option (List Token)
  | [] => some []
  | j :: t =>
    match jsonToToken j, tokensFromJson t with
    | some tok, some toks => some (tok :: toks)
    | _, _ => none

/-- The serde JSON reading of a `PreTokenizedString` (derived Deserialize),
restricted to the maps the derived Serialize emits. -/
def jsonToPreTok : Json → Option PreTokenizedString
  | .obj [(k1, .jstr s), (k2, .arr l)] =>
    if k1 = keyText ∧ k2 = keyTokens then
      match tokensFromJson l with
      | some toks => some ⟨s, toks⟩
      | none => none
    else none
  | _ => none

theorem jsonToToken_tokenToJson (t : Token) : jsonToToken (tokenToJson t) = some t := by
  cases t
  simp [tokenToJson, jsonToToken]

theorem tokensFromJson_map (ts : List Token) :
    tokensFromJson (ts.map tokenToJson) = some ts := by
  induction ts with
  | nil => rfl
  | cons h t ih => simp [tokensFromJson, jsonToToken_tokenToJson, ih]

theorem jsonToPreTok_preTokToJson (p : PreTokenizedString) :
    jsonToPreTok (preTokToJson p) = some p := by
  cases p
  simp [preTokToJson, jsonToPreTok, tokensFromJson_map]

/-- `common::f64_to_u64` (common crate, not under src/): the order-preserving
map from f64 bit patterns to u64; a sign-positive pattern gets its sign bit
set, a sign-negative one is complemented. Modelled on the bit pattern. -/
def f64_to_u64 (bits : Nat) : Nat :=
  if bits < 2 ^ 63 then bits + 2 ^ 63 else 2 ^ 64 - 1 - bits

/-- `common::u64_to_f64` (common crate, not under src/): inverse of
`f64_to_u64` on bit patterns. -/
def u64_to_f64 (u : Nat) : Nat :=
  if 2 ^ 63 ≤ u then u - 2 ^ 63 else 2 ^ 64 - 1 - u

theorem u64_to_f64_f64_to_u64 (b : Nat) (h : b < 2 ^ 64) :
    u64_to_f64 (f64_to_u64 b) = b := by
  unfold f64_to_u64 u64_to_f64
  split <;> split <;> omega

theorem f64_to_u64_lt (b : Nat) (h : b < 2 ^ 64) : f64_to_u64 b < 2 ^ 64 := by
  unfold f64_to_u64
  split <;> omega

/-- A bit pattern is an IEEE-754 NaN: exponent all ones, mantissa nonzero. -/
def isNanBits (b : Nat) : Bool :=
  decide (b / 2 ^ 52 % 2 ^ 11 = 2047 ∧ ¬b % 2 ^ 52 = 0)

/-- IEEE-754 `==` on two f64 bit patterns (Rust `f64: PartialEq`): false when
either side is NaN, true for +0.0 vs -0.0, bit equality otherwise. -/
def f64IeeeEq (a b : Nat) : Bool :=
  if isNanBits a || isNanBits b then false
  else if a % 2 ^ 63 = 0 ∧ b % 2 ^ 63 = 0 then true
  else decide (a = b)

/-- Two's complement of an i64 as the 8-byte-wide natural it is stored as. -/
def toTwos64 (i : Int) : Nat := (i % (2 ^ 64 : Int)).toNat

def fromTwos64 (n : Nat) : Int :=
  if n < 2 ^ 63 then (n : Int) else (n : Int) - 2 ^ 64

theorem fromTwos64_toTwos64 (i : Int) (h1 : -(2 ^ 63) ≤ i) (h2 : i < 2 ^ 63) :
    fromTwos64 (toTwos64 i) = i := by
  unfold toTwos64 fromTwos64
  split <;> omega

theorem toTwos64_lt (i : Int) : toTwos64 i < 2 ^ 64 := by
  unfold toTwos64
  omega

def base64Char (n : Nat) : Nat :=
  if n < 26 then 65 + n
  else if n < 52 then 97 + (n - 26)
  else if n < 62 then 48 + (n - 52)
  else if n = 62 then 43
  else 47

/-- `base64::encode` (external crate): standard alphabet with `=`-padding. -/
def base64Encode : List Nat → List Nat
  | [] => []
  | [a] => [base64Char (a / 4 % 64), base64Char (a % 4 * 16), 61, 61]
  | [a, b] =>
    [base64Char (a / 4 % 64), base64Char (a % 4 * 16 + b / 16),
      base64Char (b % 16 * 4), 61]
  | a :: b :: c :: rest =>
    base64Char (a / 4 % 64) :: base64Char (a % 4 * 16 + b / 16) ::
      base64Char (b % 16 * 4 + c / 64) :: base64Char (c % 64) ::
        base64Encode rest

/-- `BinarySerializable for String` / `Vec<u8>` (common crate, not under
src/): a VInt byte length followed by the raw bytes. -/
def strSerialize (s : List Nat) : List Nat := vintEnc s.length ++ s

def strDeserialize (b : List Nat) : Option (List Nat × List Nat) :=
  match vintDec b with
  | some (n, rest) =>
    if n ≤ rest.length then some (rest.take n, rest.drop n) else none
  | none => none

theorem strDeserialize_strSerialize (s rest : List Nat) :
    strDeserialize (strSerialize s ++ rest) = some (s, rest) := by
  unfold strSerialize strDeserialize
  rw [List.append_assoc, vintDec_vintEnc]
  have h1 : s.length ≤ (s ++ rest).length := by
    simp
  show (if s.length ≤ (s ++ rest).length then
      some ((s ++ rest).take s.length, (s ++ rest).drop s.length)
    else none) = some (s, rest)
  rw [if_pos h1, take_append_len s rest s.length rfl,
    drop_append_len s rest s.length rfl]

/-- `Value` (value.rs lines 16 to 41). Strings, facets and byte arrays are
byte lists; F64 carries the IEEE-754 bit pattern (Lean has no f64); Date
carries the microsecond timestamp; IpAddr carries the u128 of the Ipv6Addr;
JsonObject carries the parsed JSON members. -/
inductive Value where
  | str (s : List Nat)
  | preTokStr (p : PreTokenizedString)
  | u64 (u : Nat)
  | i64 (i : Int)
  | f64 (bits : Nat)
  | bool (b : Bool)
  | date (micros : Int)
  | facet (f : List Nat)
  | bytes (b : List Nat)
  | jsonObject (m : List (List Nat × Json))
  | ipAddr (ip : Nat)
deriving DecidableEq

/-- `BinarySerializable for Value :: serialize` (value.rs lines 371 to 430),
written to an in-memory sink: the type code, then the payload. The
PreTokStr arm's json dump (`serde_json::to_string`) is the modelled printer,
which is total, so the dump-failure arm of the source is unreachable here. -/
def valueSerialize : Value → List Nat
  | .str s => 0 :: strSerialize s
  | .preTokStr p => 7 :: 0 :: strSerialize (printJson (preTokToJson p))
  | .u64 u => 1 :: natToLE 8 u
  | .i64 i => 2 :: natToLE 8 (toTwos64 i)
  | .f64 b => 6 :: natToLE 8 (f64_to_u64 b)
  | .bool b => 9 :: [if b then 1 else 0]
  | .date m => 5 :: natToLE 8 (toTwos64 m)
  | .facet f => 3 :: strSerialize f
  | .bytes b => 4 :: strSerialize b
  | .jsonObject m => 8 :: printJson (.obj m)
  | .ipAddr ip => 10 :: natToLE 16 ip

def eofErr : IoErr := ⟨.unexpectedEof, "failed to fill whole buffer"⟩

/-- `BinarySerializable for Value :: deserialize` (value.rs lines 432 to
509): dispatch on the type code; code 7 reads an extended-type code and, for
TOK_STR, parses the inner JSON string as a PreTokenizedString; code 8 reads
one JSON object from the stream and leaves the remainder. Unknown codes are
InvalidData errors naming the code. -/
def valueDeserialize (b : List Nat) : Except IoErr (Value × List Nat) :=
  match b with
  | [] => .error eofErr
  | t :: rest =>
    if t = 0 then
      match strDeserialize rest with
      | some (s, r) => .ok (.str s, r)
      | none => .error eofErr
    else if t = 1 then
      if 8 ≤ rest.length then .ok (.u64 (leToNat (rest.take 8)), rest.drop 8)
      else .error eofErr
    else if t = 2 then
      if 8 ≤ rest.length then
        .ok (.i64 (fromTwos64 (leToNat (rest.take 8))), rest.drop 8)
      else .error eofErr
    else if t = 6 then
      if 8 ≤ rest.length then
        .ok (.f64 (u64_to_f64 (leToNat (rest.take 8))), rest.drop 8)
      else .error eofErr
    else if t = 9 then
      match rest with
      | [] => .error eofErr
      | v :: r => .ok (.bool (decide ¬v = 0), r)
    else if t = 5 then
      if 8 ≤ rest.length then
        .ok (.date (fromTwos64 (leToNat (rest.take 8))), rest.drop 8)
      else .error eofErr
    else if t = 3 then
      match strDeserialize rest with
      | some (s, r) => .ok (.facet s, r)
      | none => .error eofErr
    else if t = 4 then
      match strDeserialize rest with
      | some (s, r) => .ok (.bytes s, r)
      | none => .error eofErr
    else if t = 7 then
      match rest with
      | [] => .error eofErr
      | e :: r2 =>
        if e = 0 then
          match strDeserialize r2 with
          | some (s, r3) =>
            match jsonParseBytes s with
            | some js =>
              match jsonToPreTok js with
              | some p => .ok (.preTokStr p, r3)
              | none =>
                .error ⟨.other, "Failed to parse string data as Value::PreTokStr(_)."⟩
            | none =>
              .error ⟨.other, "Failed to parse string data as Value::PreTokStr(_)."⟩
          | none => .error eofErr
        else
          .error ⟨.invalidData,
            "No extended field type is associated with code " ++ toString e⟩
    else if t = 8 then
      match parseJsonVal (2 * rest.length + 1) rest with
      | some (.obj m, r) => .ok (.jsonObject m, r)
      | _ => .error ⟨.invalidData, "expected a json object"⟩
    else if t = 10 then
      if 16 ≤ rest.length then
        .ok (.ipAddr (leToNat (rest.take 16)), rest.drop 16)
      else .error eofErr
    else
      .error ⟨.invalidData, "No field type is associated with code " ++ toString t⟩

/-- Rust `PartialEq` on `Value` (derived, value.rs line 15): structural
except through the F64 arm, whose `f64` field compares by IEEE-754 `==`. -/
def valueEqRust (a b : Value) : Bool :=
  match a, b with
  | .f64 x, .f64 y => f64IeeeEq x y
  | x, y => decide (x = y)

/-- The fixed-width payloads a `Value` carries fit their machine widths. -/
def wfValue : Value → Bool
  | .u64 u => decide (u < 2 ^ 64)
  | .i64 i => decide (-(2 ^ 63) ≤ i ∧ i < 2 ^ 63)
  | .f64 b => decide (b < 2 ^ 64)
  | .date m => decide (-(2 ^ 63) ≤ m ∧ m < 2 ^ 63)
  | .ipAddr ip => decide (ip < 2 ^ 128)
  | _ => true

def isNanF64 : Value → Bool
  | .f64 b => isNanBits b
  | _ => false

theorem drop_len_self {α : Type} (l : List α) (k : Nat) (h : l.length = k) :
    l.drop k = [] := by
  subst h
  exact List.drop_length l

/-- Per-variant binary round trip: deserializing the serialized bytes of a
well-formed Value returns the structurally identical Value and consumes the
whole stream. -/
theorem valueRoundTrip (v : Value) (hwf : wfValue v = true) :
    valueDeserialize (valueSerialize v) = .ok (v, []) := by
  cases v with
  | str s =>
    have h := strDeserialize_strSerialize s []
    rw [List.append_nil] at h
    simp [valueSerialize, valueDeserialize, h]
  | preTokStr p =>
    have h := strDeserialize_strSerialize (printJson (preTokToJson p)) []
    rw [List.append_nil] at h
    simp [valueSerialize, valueDeserialize, h, jsonParseBytes_print,
      jsonToPreTok_preTokToJson]
  | u64 u =>
    simp only [wfValue, decide_eq_true_eq] at hwf
    have hlen := natToLE_length 8 u
    simp [valueSerialize, valueDeserialize, hlen,
      take_len_self (natToLE 8 u) 8 hlen, drop_len_self (natToLE 8 u) 8 hlen,
      leToNat_natToLE 8 u (by omega)]
  | i64 i =>
    simp only [wfValue, decide_eq_true_eq] at hwf
    have hlen := natToLE_length 8 (toTwos64 i)
    have hlt := toTwos64_lt i
    simp [valueSerialize, valueDeserialize, hlen,
      take_len_self (natToLE 8 (toTwos64 i)) 8 hlen,
      drop_len_self (natToLE 8 (toTwos64 i)) 8 hlen,
      leToNat_natToLE 8 (toTwos64 i) (by omega),
      fromTwos64_toTwos64 i hwf.1 hwf.2]
  | f64 b =>
    simp only [wfValue, decide_eq_true_eq] at hwf
    have hlen := natToLE_length 8 (f64_to_u64 b)
    have hlt := f64_to_u64_lt b hwf
    simp [valueSerialize, valueDeserialize, hlen,
      take_len_self (natToLE 8 (f64_to_u64 b)) 8 hlen,
      drop_len_self (natToLE 8 (f64_to_u64 b)) 8 hlen,
      leToNat_natToLE 8 (f64_to_u64 b) (by omega),
      u64_to_f64_f64_to_u64 b hwf]
  | bool b =>
    cases b <;> simp [valueSerialize, valueDeserialize]
  | date m =>
    simp only [wfValue, decide_eq_true_eq] at hwf
    have hlen := natToLE_length 8 (toTwos64 m)
    have hlt := toTwos64_lt m
    simp [valueSerialize, valueDeserialize, hlen,
      take_len_self (natToLE 8 (toTwos64 m)) 8 hlen,
      drop_len_self (natToLE 8 (toTwos64 m)) 8 hlen,
      leToNat_natToLE 8 (toTwos64 m) (by omega),
      fromTwos64_toTwos64 m hwf.1 hwf.2]
  | facet f =>
    have h := strDeserialize_strSerialize f []
    rw [List.append_nil] at h
    simp [valueSerialize, valueDeserialize, h]
  | bytes b =>
    have h := strDeserialize_strSerialize b []
    rw [List.append_nil] at h
    simp [valueSerialize, valueDeserialize, h]
  | jsonObject m =>
    have hw := (weight_le_print (jsonWeight (Json.obj m))).1 (Json.obj m) le_rfl
    have h := (parse_print_all (2 * (printJson (Json.obj m)).length + 1)).1
      (Json.obj m) [] (by omega) delimOk_nil
    rw [List.append_nil] at h
    simp [valueSerialize, valueDeserialize, h]
  | ipAddr ip =>
    simp only [wfValue, decide_eq_true_eq] at hwf
    have hlen := natToLE_length 16 ip
    simp [valueSerialize, valueDeserialize, hlen,
      take_len_self (natToLE 16 ip) 16 hlen,
      drop_len_self (natToLE 16 ip) 16 hlen,
      leToNat_natToLE 16 ip (by omega)]

/-- C9 counterexample: the F64 NaN bit pattern 0x7FF8000000000000 round-trips
to the bit-identical value, yet Rust equality on the result is false, because
the derived PartialEq compares the F64 payloads with IEEE-754 `==` and
NaN != NaN. -/
theorem c9_counterexample :
    valueDeserialize (valueSerialize (Value.f64 9221120237041090560)) =
      .ok (Value.f64 9221120237041090560, []) ∧
    valueEqRust (Value.f64 9221120237041090560)
      (Value.f64 9221120237041090560) = false := by
  constructor
  · rfl
  · decide

/-- C9 (corrected): for every well-formed Value, deserializing the serialized
bytes succeeds, consumes the whole stream and returns the structurally
identical Value; the result additionally compares equal to the original under
Rust's PartialEq whenever the value is not an F64 NaN (for an F64 NaN the
round trip is still bit-exact but NaN != NaN). -/
theorem c9_binary_round_trip (v : Value) (hwf : wfValue v = true)
    (hnan : isNanF64 v = false) :
    valueDeserialize (valueSerialize v) = .ok (v, []) ∧
      valueEqRust v v = true := by
  refine ⟨valueRoundTrip v hwf, ?_⟩
  cases v with
  | f64 b =>
    simp only [isNanF64] at hnan
    simp [valueEqRust, f64IeeeEq, hnan]
  | str s => simp [valueEqRust]
  | preTokStr p => simp [valueEqRust]
  | u64 u => simp [valueEqRust]
  | i64 i => simp [valueEqRust]
  | bool b => simp [valueEqRust]
  | date m => simp [valueEqRust]
  | facet f => simp [valueEqRust]
  | bytes b => simp [valueEqRust]
  | jsonObject m => simp [valueEqRust]
  | ipAddr ip => simp [valueEqRust]

theorem c9_witness :
    wfValue (Value.u64 5) = true ∧ isNanF64 (Value.u64 5) = false ∧
      (valueDeserialize (valueSerialize (Value.u64 5)) =
          .ok (Value.u64 5, []) ∧
        valueEqRust (Value.u64 5) (Value.u64 5) = true) :=
  ⟨by decide, by decide,
    c9_binary_round_trip (Value.u64 5) (by decide) (by decide)⟩

/-- C7: a leading type code outside the known enumeration 0..10, and an
extended-type code other than TOK_STR (0) after the EXT code 7, each make
`Value::deserialize` return an InvalidData I/O error whose message names the
offending code; no default variant is produced. (In the u8 byte domain every
unknown code is > 10.) -/
theorem c7_unknown_tag_error (t e : Nat) (rest rest2 : List Nat)
    (ht : 10 < t) (he : e ≠ 0) :
    valueDeserialize (t :: rest) =
      .error ⟨.invalidData,
        "No field type is associated with code " ++ toString t⟩ ∧
    valueDeserialize (7 :: e :: rest2) =
      .error ⟨.invalidData,
        "No extended field type is associated with code " ++ toString e⟩ := by
  constructor
  · simp [valueDeserialize, show t ≠ 0 from by omega, show t ≠ 1 from by omega,
      show t ≠ 2 from by omega, show t ≠ 6 from by omega,
      show t ≠ 9 from by omega, show t ≠ 5 from by omega,
      show t ≠ 3 from by omega, show t ≠ 4 from by omega,
      show t ≠ 7 from by omega, show t ≠ 8 from by omega,
      show t ≠ 10 from by omega]
  · simp [valueDeserialize, he]

theorem c7_witness :
    10 < 11 ∧ (1 : Nat) ≠ 0 ∧
      (valueDeserialize [11] =
          .error ⟨.invalidData,
            "No field type is associated with code " ++ toString 11⟩ ∧
        valueDeserialize [7, 1] =
          .error ⟨.invalidData,
            "No extended field type is associated with code " ++ toString 1⟩) :=
  ⟨by decide, by decide, c7_unknown_tag_error 11 1 [] [] (by decide) (by decide)⟩

/-- C8: when the inner JSON text of an EXT/TOK_STR payload does not parse as
a PreTokenizedString, `Value::deserialize` returns the dedicated Other-kind
I/O error instead of dropping or altering the value. (The dual serialize-side
arm of the source cannot fire in this embedding: the modelled
`serde_json::to_string` is total.) -/
theorem c8_pretok_parse_failure (s rest : List Nat)
    (hfail : (jsonParseBytes s).bind jsonToPreTok = none) :
    valueDeserialize ((7 :: 0 :: strSerialize s) ++ rest) =
      .error ⟨.other, "Failed to parse string data as Value::PreTokStr(_)."⟩ := by
  have h := strDeserialize_strSerialize s rest
  cases hj : jsonParseBytes s with
  | none => simp [valueDeserialize, h, hj]
  | some j =>
    rw [hj] at hfail
    simp only [Option.some_bind] at hfail
    simp [valueDeserialize, h, hj, hfail]

theorem c8_witness :
    (jsonParseBytes [120]).bind jsonToPreTok = none ∧
      valueDeserialize ((7 :: 0 :: strSerialize [120]) ++ []) =
        .error ⟨.other, "Failed to parse string data as Value::PreTokStr(_)."⟩ :=
  ⟨by decide, c8_pretok_parse_failure [120] [] (by decide)⟩

/-- The serde data model values serde_json exchanges with
Serialize/Deserialize impls (external crate, modelled): null, bool, integer
(nonnegative as u64, negative as i64), float (bit pattern), string (bytes),
sequence, map. -/
inductive SerdeVal where
  | sNull
  | sBool (b : Bool)
  | sU64 (u : Nat)
  | sI64 (i : Int)
  | sF64 (bits : Nat)
  | sStr (s : List Nat)
  | sSeq (l : List SerdeVal)
  | sMap (l : List (List Nat × SerdeVal))

mutual

/-- A parsed JSON tree as the serde data model presents it to a visitor:
nonnegative numbers arrive as u64, negative ones as i64. -/
def jsonToSerde : Json → SerdeVal
  | .null => .sNull
  | .jbool b => .sBool b
  | .num n => if 0 ≤ n then .sU64 n.toNat else .sI64 n
  | .jstr s => .sStr s
  | .arr l => .sSeq (jsonElemsToSerde l)
  | .obj m => .sMap (jsonMembersToSerde m)

def jsonElemsToSerde : List Json → List SerdeVal
  | [] => []
  | h :: t => jsonToSerde h :: jsonElemsToSerde t

def jsonMembersToSerde : List (List Nat × Json) → List (List Nat × SerdeVal)
  | [] => []
  | m :: t => (m.1, jsonToSerde m.2) :: jsonMembersToSerde t

end

/-- Modelled rendering of the external rfc3339 date formatter (time crate,
value.rs line 75): the claims only depend on the result being a string, so
the digits of the microsecond timestamp stand in for the formatted text. -/
def dateRfc3339 (micros : Int) : List Nat := intDigits micros ++ [90]

/-- Modelled rendering of std `Ipv4Addr`/`Ipv6Addr` Display (value.rs lines
79 to 86): both branches of the `to_ipv4_mapped` dispatch serialize as a
string, which is all the claims use. -/
def ipDisplay (ip : Nat) : List Nat := digitsOf ip

/-- The serde rendering of a `Token` (derived Serialize): a map of the five
fields in declaration order. -/
def tokenToSerde (t : Token) : SerdeVal :=
  .sMap [(keyOffsetFrom, .sU64 t.offset_from), (keyOffsetTo, .sU64 t.offset_to),
    (keyPosition, .sU64 t.position), (keyText, .sStr t.text),
    (keyPositionLength, .sU64 t.position_length)]

/-- `Serialize for Value` (value.rs lines 65 to 88) against the serde data
model: strings, dates (rfc3339 text), facets, base64'd byte arrays and IP
addresses all serialize as strings; PreTokStr and JsonObject as maps. -/
def valueSerializeSerde : Value → SerdeVal
  | .str s => .sStr s
  | .preTokStr p =>
    .sMap [(keyText, .sStr p.text), (keyTokens, .sSeq (p.tokens.map tokenToSerde))]
  | .u64 u => .sU64 u
  | .i64 i => .sI64 i
  | .f64 b => .sF64 b
  | .bool b => .sBool b
  | .date m => .sStr (dateRfc3339 m)
  | .facet f => .sStr f
  | .bytes b => .sStr (base64Encode b)
  | .jsonObject m => .sMap (jsonMembersToSerde m)
  | .ipAddr ip => .sStr (ipDisplay ip)

/-- `Deserialize for Value` (value.rs lines 91 to 131): the ValueVisitor
implements only visit_i64, visit_u64, visit_f64, visit_bool, visit_str and
visit_string, so every other shape hits serde's default invalid-type error
against the visitor's expecting() text. -/
def valueDeserializeSerde : SerdeVal → Except String Value
  | .sI64 i => .ok (.i64 i)
  | .sU64 u => .ok (.u64 u)
  | .sF64 b => .ok (.f64 b)
  | .sBool b => .ok (.bool b)
  | .sStr s => .ok (.str s)
  | .sNull => .error "invalid type: null, expected a string or u32"
  | .sSeq _ => .error "invalid type: sequence, expected a string or u32"
  | .sMap _ => .error "invalid type: map, expected a string or u32"

/-- The variants the serde Deserialize impl can produce. -/
def serdeProducible : Value → Bool
  | .str _ => true
  | .u64 _ => true
  | .i64 _ => true
  | .f64 _ => true
  | .bool _ => true
  | _ => false

/-- The variants C10 lists as not surviving the JSON path. -/
def serdeLossy : Value → Bool
  | .preTokStr _ => true
  | .date _ => true
  | .facet _ => true
  | .bytes _ => true
  | .jsonObject _ => true
  | .ipAddr _ => true
  | _ => false

/-- C10: the serde Deserialize impl for Value only ever produces the Str,
U64, I64, F64 and Bool variants; hence serializing any of the six lossy
variants (Bytes, Date, Facet, IpAddr, PreTokStr, JsonObject) to JSON and
deserializing back never returns the original value — in particular a Bytes
value comes back as a Str holding its base64 text. -/
theorem c10_serde_not_round_trip :
    (∀ (s : SerdeVal) (w : Value), valueDeserializeSerde s = .ok w →
      serdeProducible w = true) ∧
    (∀ (v w : Value), serdeLossy v = true →
      valueDeserializeSerde (valueSerializeSerde v) = .ok w → w ≠ v) ∧
    (∀ b : List Nat, valueDeserializeSerde (valueSerializeSerde (.bytes b)) =
      .ok (.str (base64Encode b))) := by
  refine ⟨?_, ?_, ?_⟩
  · intro s w h
    cases s <;> simp [valueDeserializeSerde] at h <;> subst h <;>
      simp [serdeProducible]
  · intro v w hl hde
    cases v <;> simp [serdeLossy] at hl <;>
      simp [valueSerializeSerde, valueDeserializeSerde] at hde <;>
      subst hde <;> simp
  · intro b
    rfl

theorem c10_witness :
    valueDeserializeSerde (valueSerializeSerde (Value.bytes [255])) =
        .ok (Value.str (base64Encode [255])) ∧
      serdeProducible (Value.str (base64Encode [255])) = true ∧
      Value.str (base64Encode [255]) ≠ Value.bytes [255] :=
  ⟨c10_serde_not_round_trip.2.2 [255],
    c10_serde_not_round_trip.1 (valueSerializeSerde (Value.bytes [255]))
      (Value.str (base64Encode [255])) rfl,
    c10_serde_not_round_trip.2.1 (Value.bytes [255])
      (Value.str (base64Encode [255])) rfl rfl⟩
